import Mathlib

/-!
Verification of the `sql-parser-demo` repository: a shallow embedding of
`src/token.rs`, `src/error.rs`, `src/expr.rs`, `src/ast.rs` and
`src/parser.rs` in Lean 4, together with theorems settling the frozen
claims about the natural-language specification.

Modelling conventions:
* Rust `usize` positions and lengths are `Nat` (all quantities here are
  small; no overflow is reachable).
* Rust `f64` similarity scores are modelled in exact rational arithmetic
  (`ℚ`); the numerators/denominators involved are tiny and every
  comparison appearing in a theorem is far from a rounding boundary.
* `String::len` counts bytes in Rust and characters here; every token text
  the lexer can produce for the claims at hand is ASCII, where the two
  coincide.
* The `colored` crate only wraps display strings in terminal escape codes;
  the caret in the context snippet is modelled as a plain `"^"`.
-/

namespace SqlParserDemo

/-! ## Tokens (`src/token.rs`) -/

/-- `TokenKind` from `src/token.rs`.  Keyword patterns are case-insensitive
in the lexer; `Eof` has no lexer pattern and is produced only by
`tokenize`'s final push. -/
inductive TokenKind where
  | Select | From | Where | With | Recursive | As | Union | All | And | Or
  | Insert | Update | Delete
  | Identifier | String | Number | Float
  | Plus | Minus | Star | Slash
  | Equal | NotEqual | Less | Greater | LessEqual | GreaterEqual
  | LeftParen | RightParen | Comma | Semicolon
  | Eof
  deriving DecidableEq, Repr

/-- The Rust `Debug` rendering of a `TokenKind`, as produced by
`format!("{:?}", expected)` in `Parser::expect`. -/
def kindDebugName : TokenKind → String
  | .Select => "Select" | .From => "From" | .Where => "Where" | .With => "With"
  | .Recursive => "Recursive" | .As => "As" | .Union => "Union" | .All => "All"
  | .And => "And" | .Or => "Or" | .Insert => "Insert" | .Update => "Update"
  | .Delete => "Delete" | .Identifier => "Identifier" | .String => "String"
  | .Number => "Number" | .Float => "Float" | .Plus => "Plus" | .Minus => "Minus"
  | .Star => "Star" | .Slash => "Slash" | .Equal => "Equal"
  | .NotEqual => "NotEqual" | .Less => "Less" | .Greater => "Greater"
  | .LessEqual => "LessEqual" | .GreaterEqual => "GreaterEqual"
  | .LeftParen => "LeftParen" | .RightParen => "RightParen" | .Comma => "Comma"
  | .Semicolon => "Semicolon" | .Eof => "Eof"

/-- `Token` from `src/token.rs`: borrowed text, kind, and half-open span. -/
structure Token where
  text : String
  kind : TokenKind
  spanStart : Nat
  spanEnd : Nat
  deriving DecidableEq, Repr

/-- Modelled from the spec: the `logos`-generated lexer (an external crate)
is abstracted as an arbitrary finite list of lexer results.  Each item is
either a recognized token kind with its span (`res = some k`) or an
unrecognized run (`res = none`), which `tokenize` skips. -/
structure LexItem where
  res : Option TokenKind
  spanStart : Nat
  spanEnd : Nat
  deriving DecidableEq, Repr

/-- Character-indexed slice of the input, standing in for Rust's
`&input[span]` (identical on ASCII input). -/
def strSlice (input : String) (s e : Nat) : String :=
  ⟨(input.data.drop s).take (e - s)⟩

/-- `tokenize` from `src/token.rs`: keep the `Ok` lexer results as tokens
(text taken from the input at the span) and always append the `Eof`
sentinel token with empty text and a zero-length span at the end of
input. -/
def tokenize (input : String) (items : List LexItem) : List Token :=
  (items.filterMap fun it =>
    it.res.map fun k => Token.mk (strSlice input it.spanStart it.spanEnd) k it.spanStart it.spanEnd)
  ++ [Token.mk "" TokenKind.Eof input.length input.length]

/-! ## Error tracker (`src/error.rs`) -/

/-- `BacktraceInner` from `src/error.rs`. -/
structure BacktraceInner where
  furthestPos : Nat
  expected : List String
  found : Option String
  line : Nat
  column : Nat
  deriving DecidableEq, Repr

/-- The `Backtrace`'s `RefCell<Option<BacktraceInner>>` contents. -/
abbrev Backtrace := Option BacktraceInner

/-- `position_to_line_col` from `src/error.rs`: walk the characters,
stopping after `pos` of them, incrementing the line and resetting the
column on each newline; 1-indexed. -/
def lineColAux : List Char → Nat → Nat → Nat → Nat × Nat
  | _, 0, line, col => (line, col)
  | [], _ + 1, line, col => (line, col)
  | c :: cs, n + 1, line, col =>
      if c = '\n' then lineColAux cs n (line + 1) 1 else lineColAux cs n line (col + 1)

def position_to_line_col (input : String) (pos : Nat) : Nat × Nat :=
  lineColAux input.data pos 1 1

/-- `Backtrace::track_error` from `src/error.rs`, as a pure state update:
first failure installs the state; a strictly-further failure replaces it
wholesale; an equal-position failure appends the label if absent; a
nearer failure is a no-op. -/
def track_error (bt : Backtrace) (pos : Nat) (expected : String)
    (found : Option String) (input : String) : Backtrace :=
  let lc := position_to_line_col input pos
  match bt with
  | none => some ⟨pos, [expected], found, lc.1, lc.2⟩
  | some existing =>
      if pos > existing.furthestPos then
        some ⟨pos, [expected], found, lc.1, lc.2⟩
      else if pos = existing.furthestPos then
        if expected ∈ existing.expected then some existing
        else some { existing with expected := existing.expected ++ [expected] }
      else some existing

/-- `ParseError` from `src/error.rs`. -/
structure ParseError where
  message : String
  line : Nat
  column : Nat
  suggestion : Option String
  context : Option String
  deriving DecidableEq, Repr

/-! ### Keyword suggestion (`suggest_keyword` and the strsim metric)

`suggest_keyword` in `src/error.rs` scores the uppercased found text
against a fixed vocabulary with `strsim::jaro_winkler`.  The strsim crate
is an external dependency; its algorithm is embedded below in exact
rational arithmetic ("Modelled from the spec" in the sense that the
crate's source is not part of this repository): Jaro similarity with the
standard half-window search, first-unconsumed greedy matching and
out-of-order transposition counting, then the Winkler common-prefix bonus
`sim + 0.1 * prefix * (1 - sim)` capped at 1. -/

/-- Rust `str::to_uppercase`, on the character list (identical on ASCII
input, which is all the lexer's identifiers can be). -/
def toUpperStr (s : String) : String := ⟨s.data.map Char.toUpper⟩

def KEYWORDS : List String :=
  ["SELECT", "FROM", "WHERE", "WITH", "RECURSIVE", "INSERT", "UPDATE", "DELETE",
   "UNION", "ALL", "AND", "OR", "AS", "JOIN", "LEFT", "RIGHT", "INNER", "OUTER",
   "ON", "GROUP", "ORDER", "BY", "HAVING", "LIMIT", "OFFSET"]

/-- Find the first unconsumed index `j ∈ [minB, maxB]` of `b` holding
character `ac`. -/
def jaroFindMatch (ac : Char) (b : List Char) (consumed : List Bool)
    (minB maxB : Nat) : Option Nat :=
  (List.range b.length).find? fun j =>
    decide (minB ≤ j) && decide (j ≤ maxB) && decide (b.getD j ' ' = ac)
      && !(consumed.getD j true)

/-- The Jaro matching loop: returns (matches, transpositions). -/
def jaroLoop (b : List Char) (sr : Nat) :
    List (Nat × Char) → List Bool → Nat → Nat → Nat → Nat × Nat
  | [], _, m, t, _ => (m, t)
  | (i, ac) :: rest, consumed, m, t, bmi =>
      let minB := if i > sr then i - sr else 0
      let maxB := min (b.length - 1) (i + sr)
      if minB > maxB then jaroLoop b sr rest consumed m t bmi
      else
        match jaroFindMatch ac b consumed minB maxB with
        | some j => jaroLoop b sr rest (consumed.set j true) (m + 1)
            (if j < bmi then t + 1 else t) j
        | none => jaroLoop b sr rest consumed m t bmi

/-- Jaro similarity in exact rational arithmetic. -/
def jaro (a b : List Char) : ℚ :=
  if a.length = 0 ∧ b.length = 0 then 1
  else if a.length = 0 ∨ b.length = 0 then 0
  else
    let sr := max a.length b.length / 2 - 1
    let mt := jaroLoop b sr a.enum (List.replicate b.length false) 0 0 0
    if mt.1 = 0 then 0
    else (1 / 3 : ℚ) *
      ((mt.1 : ℚ) / (a.length : ℚ) + (mt.1 : ℚ) / (b.length : ℚ)
        + ((mt.1 : ℚ) - (mt.2 : ℚ)) / (mt.1 : ℚ))

/-- Length of the common prefix of two character lists. -/
def commonPrefixLen : List Char → List Char → Nat
  | a :: as, b :: bs => if a = b then commonPrefixLen as bs + 1 else 0
  | _, _ => 0

/-- Jaro-Winkler similarity: prefix bonus `0.1 * prefix * (1 - jaro)`,
capped at 1. -/
def jaro_winkler (a b : List Char) : ℚ :=
  let j := jaro a b
  min (j + (commonPrefixLen a b : ℚ) / 10 * (1 - j)) 1

/-- Rust `Iterator::max_by` over scored candidates: of several equally
maximal elements, the **last** is returned. -/
def maxByLast : List (String × ℚ) → Option (String × ℚ)
  | [] => none
  | x :: xs => some (xs.foldl (fun acc y => if acc.2 > y.2 then acc else y) x)

/-- `suggest_keyword` from `src/error.rs`: score the uppercased input
against every vocabulary entry, keep the scores strictly above `0.8`, and
take the maximum (`max_by`). -/
def suggest_keyword (input : String) : Option String :=
  let inputUpper := toUpperStr input
  let scored := KEYWORDS.map fun k => (k, jaro_winkler inputUpper.data k.data)
  let filtered := scored.filter fun p => decide (p.2 > (4 : ℚ) / 5)
  (maxByLast filtered).map fun p => p.1

/-! ### Context rendering and `get_error` -/

/-- Split into lines like Rust's `str::lines` (no trailing empty line for a
trailing newline; `\r\n` not modelled — no claim involves `\r`). -/
def linesAux (cur : List Char) : List Char → List (List Char)
  | [] => [cur.reverse]
  | c :: cs => if c = '\n' then cur.reverse :: linesAux [] cs else linesAux (c :: cur) cs

def strLines (input : String) : List String :=
  if input.isEmpty then []
  else
    let ls := linesAux [] input.data
    let ls := if input.data.getLast? = some '\n' then ls.dropLast else ls
    ls.map fun l => ⟨l⟩

/-- `get_error_context` from `src/error.rs`: the 1-indexed failing source
line prefixed by its number, then a caret line aligned under the failing
column (the terminal-color wrapping of the caret is presentation-only and
not modelled). -/
def get_error_context (input : String) (pos : Nat) : Option String :=
  let lines := strLines input
  let lc := position_to_line_col input pos
  if lc.1 > 0 ∧ lc.1 ≤ lines.length then
    let line := lines.getD (lc.1 - 1) ""
    some ("  " ++ toString lc.1 ++ " | " ++ line ++ "\n"
      ++ "  " ++ String.mk (List.replicate (toString lc.1).length ' ') ++ " | "
      ++ String.mk (List.replicate (lc.2 - 1) ' ') ++ "^")
  else none

/-- `Backtrace::get_error` from `src/error.rs`: with no tracked failure,
the defensive fallback; otherwise the furthest failure's message with
optional suggestion and context. -/
def get_error (bt : Backtrace) (input : String) : ParseError :=
  match bt with
  | none => ⟨"Unexpected error", 1, 1, none, none⟩
  | some inner =>
      let suggestion := inner.found.bind fun found => suggest_keyword found
      let context := get_error_context input inner.furthestPos
      let expectedStr :=
        match inner.expected with
        | [e] => e
        | es => "one of: " ++ String.intercalate ", " es
      let message :=
        match inner.found with
        | some found => "Expected " ++ expectedStr ++ ", found '" ++ found ++ "'"
        | none => "Expected " ++ expectedStr ++ ", reached end of input"
      ⟨message, inner.line, inner.column, suggestion, context⟩

/-! ## AST (`src/ast.rs`, `src/expr.rs`) -/

/-- `Literal` from `src/expr.rs`.  The `f64` payload of `Float` is modelled
as the exact decimal rational; no claim depends on float values or
rounding. -/
inductive Literal where
  | number : Int → Literal
  | float : ℚ → Literal
  | str : String → Literal
  deriving DecidableEq, Repr

/-- `BinaryOp` from `src/expr.rs`: the 12-member closed set. -/
inductive BinaryOp where
  | And | Or
  | Equal | NotEqual | Less | Greater | LessEqual | GreaterEqual
  | Plus | Minus | Multiply | Divide
  deriving DecidableEq, Repr

/-- `Expr` from `src/expr.rs`. -/
inductive Expr where
  | column : String → Expr
  | literal : Literal → Expr
  | binary : Expr → BinaryOp → Expr → Expr
  | paren : Expr → Expr
  | star : Expr
  deriving DecidableEq, Repr

/-- `TableRef` from `src/ast.rs` (`alias` renamed: it is a Lean
command keyword). -/
structure TableRef where
  name : String
  aliasName : Option String
  deriving DecidableEq, Repr

/-- `SelectStmt` from `src/ast.rs` (`from` and `where_clause` renamed to
avoid Lean keywords). -/
structure SelectStmt where
  projection : List Expr
  fromClause : Option TableRef
  whereClause : Option Expr
  deriving DecidableEq, Repr

mutual
/-- `Query` from `src/ast.rs`. -/
inductive Query where
  | select : SelectStmt → Query
  | withQ : WithClause → Query → Query
  | union : Query → Bool → Query → Query

/-- `With` from `src/ast.rs` (renamed: `with` is a Lean keyword). -/
inductive WithClause where
  | mk : Bool → List CTE → WithClause

/-- `CTE` from `src/ast.rs`: name, optional column list, ordinary query. -/
inductive CTE where
  | mk : String → Option (List String) → Query → CTE
end

/-- `Statement` from `src/ast.rs`. -/
inductive Statement where
  | query : Query → Statement

/-! ## Literal conversion (Rust `str::parse::<i64>` / `::<f64>`) -/

/-- Fold decimal digits; `none` if empty or a non-digit appears. -/
def digitsToNat : List Char → Option Nat
  | [] => none
  | cs =>
      if cs.all (fun c => c.isDigit) then
        some (cs.foldl (fun a c => a * 10 + (c.toNat - '0'.toNat)) 0)
      else none

/-- Rust `str::parse::<i64>`: optional sign, nonempty digit run, value
within the `i64` range. -/
def parse_i64 (s : String) : Option Int :=
  let signDigits : Int × List Char :=
    match s.data with
    | '+' :: rest => (1, rest)
    | '-' :: rest => (-1, rest)
    | l => (1, l)
  match digitsToNat signDigits.2 with
  | none => none
  | some n =>
      let v : Int := signDigits.1 * n
      if -(2 ^ 63) ≤ v ∧ v ≤ 2 ^ 63 - 1 then some v else none

/-- Rust `str::parse::<f64>` acceptance: optional sign, then either a
decimal number (`digits [. digits?] [exp]` or `. digits [exp]` with
`exp = e|E sign? digits`) or one of the words `inf`/`infinity`/`nan`
(case-insensitive).  The returned value is the exact decimal rational
(the words map to 0 here); IEEE rounding and the non-finite values are
not modelled — no claim inspects float values. -/
def splitAtChar (sep : Char → Bool) : List Char → List Char × Option (List Char)
  | [] => ([], none)
  | c :: cs =>
      if sep c then ([], some cs)
      else
        let r := splitAtChar sep cs
        (c :: r.1, r.2)

def parse_f64 (s : String) : Option ℚ :=
  let signRest : ℚ × List Char :=
    match s.data with
    | '+' :: rest => (1, rest)
    | '-' :: rest => (-1, rest)
    | l => (1, l)
  let body := signRest.2
  let lower := body.map Char.toLower
  if lower = "inf".data ∨ lower = "infinity".data ∨ lower = "nan".data then
    some 0
  else
    let em := splitAtChar (fun c => c = 'e' ∨ c = 'E') body
    let mantissa := em.1
    let expPart : Option (Option Int) :=
      match em.2 with
      | none => some none
      | some ecs =>
          let se : Int × List Char :=
            match ecs with
            | '+' :: rest => (1, rest)
            | '-' :: rest => (-1, rest)
            | l => (1, l)
          match digitsToNat se.2 with
          | some n => some (some (se.1 * n))
          | none => none
    match expPart with
    | none => none
    | some eOpt =>
        let dd := splitAtChar (fun c => c = '.') mantissa
        let intPart := dd.1
        let mval : Option ℚ :=
          match dd.2 with
          | none =>
              (digitsToNat intPart).map fun n => (n : ℚ)
          | some fracs =>
              if intPart.isEmpty then
                (digitsToNat fracs).map fun f =>
                  (f : ℚ) / (10 : ℚ) ^ fracs.length
              else
                match digitsToNat intPart with
                | none => none
                | some n =>
                    if fracs.isEmpty then some (n : ℚ)
                    else
                      (digitsToNat fracs).map fun f =>
                        (n : ℚ) + (f : ℚ) / (10 : ℚ) ^ fracs.length
        match mval with
        | none => none
        | some m => some (signRest.1 * m * (10 : ℚ) ^ (eOpt.getD 0))

/-! ## Parser state (`src/parser.rs`) -/

/-- The `Parser` struct's mutable state: token slice, cursor, the shared
`Backtrace` and the original input. -/
structure PState where
  tokens : List Token
  pos : Nat
  backtrace : Backtrace
  input : String
  deriving DecidableEq, Repr

/-- Outcome of running a parser method: `ok`/`err` carry the resulting
state (the error value is what `?` propagates while the `Parser`'s
mutations persist); `crash` models a Rust panic (out-of-bounds index);
`spin` means the recursion fuel ran out (used to reason about
termination). -/
inductive POut (α : Type) where
  | ok : α → PState → POut α
  | err : ParseError → PState → POut α
  | crash : POut α
  | spin : POut α
  deriving DecidableEq, Repr

/-- Error/ok propagation of Rust's `?`. -/
def pbind {α β : Type} (r : POut α) (f : α → PState → POut β) : POut β :=
  match r with
  | POut.ok a st => f a st
  | POut.err e st => POut.err e st
  | POut.crash => POut.crash
  | POut.spin => POut.spin

/-- `Parser::current`. -/
def pcurrent (st : PState) : Option Token := st.tokens[st.pos]?

/-- The cursor move of `Parser::advance`: increment only while strictly
before the last token. -/
def bump (st : PState) : PState :=
  if st.pos < st.tokens.length - 1 then { st with pos := st.pos + 1 } else st

/-- Shorthand: record a failure in the shared tracker. -/
def trackSt (st : PState) (pos : Nat) (expected : String) (found : Option String) : PState :=
  { st with backtrace := track_error st.backtrace pos expected found st.input }

/-- Shorthand for `self.backtrace.get_error(self.input)`. -/
def failNow (st : PState) : ParseError := get_error st.backtrace st.input

/-- `Parser::expect`.  The `None` arm indexes `tokens[pos - 1]`, which
panics (`crash`) if out of bounds. -/
def pexpect (expected : TokenKind) (st : PState) : POut Token :=
  match pcurrent st with
  | some token =>
      if token.kind = expected then POut.ok token (bump st)
      else
        let st' := trackSt st token.spanStart (kindDebugName expected) (some token.text)
        POut.err (failNow st') st'
  | none =>
      if 0 < st.pos ∧ st.tokens ≠ [] then
        match st.tokens[st.pos - 1]? with
        | some prev =>
            let st' := trackSt st prev.spanEnd (kindDebugName expected) none
            POut.err (failNow st') st'
        | none => POut.crash
      else
        let st' := trackSt st 0 (kindDebugName expected) none
        POut.err (failNow st') st'

/-- `Parser::try_consume`. -/
def try_consume (kind : TokenKind) (st : PState) : Bool × PState :=
  match pcurrent st with
  | some t => if t.kind = kind then (true, bump st) else (false, st)
  | none => (false, st)

/-- `Parser::parse_identifier`. -/
def parse_identifier (st : PState) : POut String :=
  match pcurrent st with
  | some token =>
      if token.kind = TokenKind.Identifier then POut.ok token.text (bump st)
      else
        let st' := trackSt st token.spanStart "identifier" (some token.text)
        POut.err (failNow st') st'
  | none =>
      if 0 < st.pos ∧ st.tokens ≠ [] then
        match st.tokens[st.pos - 1]? with
        | some prev =>
            let st' := trackSt st prev.spanEnd "identifier" none
            POut.err (failNow st') st'
        | none => POut.crash
      else
        let st' := trackSt st 0 "identifier" none
        POut.err (failNow st') st'

/-- `Parser::error_at_current`: take the tracker's current best error and
replace its message.  Note it does **not** record anything. -/
def error_at_current (st : PState) (msg : String) : ParseError :=
  { get_error st.backtrace st.input with message := msg }

/-- Boolean list-prefix test. -/
def listPrefix : List Char → List Char → Bool
  | [], _ => true
  | _ :: _, [] => false
  | a :: as, b :: bs => a = b && listPrefix as bs

/-- Boolean substring test (Rust `str::contains`). -/
def listContainsSub (needle : List Char) : List Char → Bool
  | [] => needle.isEmpty
  | c :: cs => listPrefix needle (c :: cs) || listContainsSub needle cs

/-- `Parser::check_for_keyword_typo`: an identifier whose uppercased text
starts with one of the given characters is tracked as the expected
keyword; returns whether it fired. -/
def check_for_keyword_typo (expectedKeyword : String) (startsWithChars : List Char)
    (st : PState) : Bool × PState :=
  match pcurrent st with
  | some token =>
      if token.kind = TokenKind.Identifier then
        match (toUpperStr token.text).data.head? with
        | some c =>
            if c ∈ startsWithChars then
              (true, trackSt st token.spanStart expectedKeyword (some token.text))
            else (false, st)
        | none => (false, st)
      else (false, st)
  | none => (false, st)

/-- `Parser::check_for_where_typo`: identifier starting with `W` or
containing `HER` (uppercased). -/
def check_for_where_typo (st : PState) : Bool × PState :=
  match pcurrent st with
  | some token =>
      if token.kind = TokenKind.Identifier then
        let up := (toUpperStr token.text).data
        if up.head? = some 'W' || listContainsSub "HER".data up then
          (true, trackSt st token.spanStart "WHERE" (some token.text))
        else (false, st)
      else (false, st)
  | none => (false, st)

/-- `Parser::check_for_specific_where_typos` (used for table aliases). -/
def check_for_specific_where_typos (st : PState) : Bool × PState :=
  match pcurrent st with
  | some token =>
      if token.kind = TokenKind.Identifier then
        let up := (toUpperStr token.text).data
        if listPrefix "WHEER".data up || listPrefix "WHER".data up
            || listPrefix "WHRE".data up || up == "WHEER".data then
          (true, trackSt st token.spanStart "WHERE" (some token.text))
        else (false, st)
      else (false, st)
  | none => (false, st)

/-- `Parser::parse_table_ref`. -/
def parse_table_ref (st : PState) : POut TableRef :=
  pbind (parse_identifier st) fun name st1 =>
    let c := try_consume TokenKind.As st1
    if c.1 then
      pbind (parse_identifier c.2) fun al st2 => POut.ok ⟨name, some al⟩ st2
    else
      match pcurrent c.2 with
      | some token =>
          if token.kind = TokenKind.Identifier then
            let w := check_for_specific_where_typos c.2
            if w.1 then POut.err (failNow w.2) w.2
            else pbind (parse_identifier w.2) fun al st2 => POut.ok ⟨name, some al⟩ st2
          else POut.ok ⟨name, none⟩ c.2
      | none => POut.ok ⟨name, none⟩ c.2

/-- The optional-FROM section of `parse_select`: exact token requires a
table reference; otherwise the `F`-heuristic forces failure or the clause
is absent. -/
def parse_from_clause (st : PState) : POut (Option TableRef) :=
  let c := try_consume TokenKind.From st
  if c.1 then
    pbind (parse_table_ref c.2) fun tr st1 => POut.ok (some tr) st1
  else
    let w := check_for_keyword_typo "FROM" ['F'] c.2
    if w.1 then POut.err (failNow w.2) w.2
    else POut.ok none w.2

/-- `get_precedence` from `src/expr.rs` (`u8` modelled as `Nat`; all values
are ≤ 61, far from overflow). -/
def get_precedence : TokenKind → Option (Nat × Bool)
  | .Or => some (10, true)
  | .And => some (20, true)
  | .Equal => some (30, true)
  | .NotEqual => some (30, true)
  | .Less => some (40, true)
  | .Greater => some (40, true)
  | .LessEqual => some (40, true)
  | .GreaterEqual => some (40, true)
  | .Plus => some (50, true)
  | .Minus => some (50, true)
  | .Star => some (60, true)
  | .Slash => some (60, true)
  | _ => none

/-- `BinaryOp::from_token` from `src/expr.rs`. -/
def binOpFromToken : TokenKind → Option BinaryOp
  | .And => some .And
  | .Or => some .Or
  | .Equal => some .Equal
  | .NotEqual => some .NotEqual
  | .Less => some .Less
  | .Greater => some .Greater
  | .LessEqual => some .LessEqual
  | .GreaterEqual => some .GreaterEqual
  | .Plus => some .Plus
  | .Minus => some .Minus
  | .Star => some .Multiply
  | .Slash => some .Divide
  | _ => none

/-- Rust `&text[1..text.len() - 1]` on a string literal token. -/
def stripQuotes (s : String) : String := ⟨(s.data.drop 1).take (s.data.length - 2)⟩

/-! ## The recursive parser (`src/parser.rs`, `src/expr.rs`)

All recursive methods take an explicit fuel argument (structural
recursion); `POut.spin` marks fuel exhaustion and is proved unreachable
for sufficient fuel below.  Loops (`while`) are modelled as accumulator
recursions. -/

mutual

/-- `Parser::parse_primary` from `src/expr.rs`. -/
def parse_primary : Nat → PState → POut Expr
  | 0, _ => POut.spin
  | fuel + 1, st =>
      match pcurrent st with
      | some token =>
          match token.kind with
          | TokenKind.Number =>
              let st1 := bump st
              (match parse_i64 token.text with
               | some n => POut.ok (Expr.literal (Literal.number n)) st1
               | none => POut.err (error_at_current st1 "Invalid number") st1)
          | TokenKind.Float =>
              let st1 := bump st
              (match parse_f64 token.text with
               | some f => POut.ok (Expr.literal (Literal.float f)) st1
               | none => POut.err (error_at_current st1 "Invalid float") st1)
          | TokenKind.String =>
              if token.text.data.length < 2 then POut.crash
              else POut.ok (Expr.literal (Literal.str (stripQuotes token.text))) (bump st)
          | TokenKind.Identifier => POut.ok (Expr.column token.text) (bump st)
          | TokenKind.Star => POut.ok Expr.star (bump st)
          | TokenKind.LeftParen =>
              let st1 := bump st
              pbind (parse_expr_with_precedence fuel 0 st1) fun e st2 =>
                pbind (pexpect TokenKind.RightParen st2) fun _ st3 =>
                  POut.ok (Expr.paren e) st3
          | _ => POut.err (error_at_current st "Expected expression") st
      | none => POut.err (error_at_current st "Unexpected end of input") st

/-- `Parser::parse_expr_with_precedence` from `src/expr.rs`: one primary,
then the climbing loop. -/
def parse_expr_with_precedence : Nat → Nat → PState → POut Expr
  | 0, _, _ => POut.spin
  | fuel + 1, minPrec, st =>
      pbind (parse_primary fuel st) fun left st1 =>
        parse_expr_loop fuel minPrec left st1

/-- The `while let` loop inside `parse_expr_with_precedence`: stop when the
next token has no binding power or binds below `minPrec`; otherwise
consume the operator, recurse with `prec + 1` (left-associative) and fold
into a `Binary` node. -/
def parse_expr_loop : Nat → Nat → Expr → PState → POut Expr
  | 0, _, _, _ => POut.spin
  | fuel + 1, minPrec, left, st =>
      match pcurrent st with
      | none => POut.ok left st
      | some token =>
          match get_precedence token.kind with
          | none => POut.ok left st
          | some pb =>
              if pb.1 < minPrec then POut.ok left st
              else
                let st1 := bump st
                let nextMin := if pb.2 then pb.1 + 1 else pb.1
                pbind (parse_expr_with_precedence fuel nextMin st1) fun right st2 =>
                  match binOpFromToken token.kind with
                  | some op => parse_expr_loop fuel minPrec (Expr.binary left op right) st2
                  | none => parse_expr_loop fuel minPrec left st2

/-- `Parser::parse_expr_list` from `src/parser.rs`. -/
def parse_expr_list : Nat → PState → POut (List Expr)
  | 0, _ => POut.spin
  | fuel + 1, st =>
      pbind (parse_expr_with_precedence fuel 0 st) fun e st1 =>
        parse_expr_list_aux fuel [e] st1

/-- The comma loop of `parse_expr_list`. -/
def parse_expr_list_aux : Nat → List Expr → PState → POut (List Expr)
  | 0, _, _ => POut.spin
  | fuel + 1, acc, st =>
      let c := try_consume TokenKind.Comma st
      if c.1 then
        pbind (parse_expr_with_precedence fuel 0 c.2) fun e st2 =>
          parse_expr_list_aux fuel (acc ++ [e]) st2
      else POut.ok acc c.2

/-- `Parser::parse_select` from `src/parser.rs`: lenient keyword
recognition, then the common body. -/
def parse_select : Nat → PState → POut SelectStmt
  | 0, _ => POut.spin
  | fuel + 1, st =>
      match pcurrent st with
      | some token =>
          if token.kind = TokenKind.Select then
            parse_select_body fuel false (bump st)
          else if token.kind = TokenKind.Identifier then
            let st1 := trackSt st token.spanStart "SELECT" (some token.text)
            let up := (toUpperStr token.text).data
            if listPrefix "SEL".data up && decide (4 ≤ up.length) then
              parse_select_body fuel true (bump st1)
            else POut.err (failNow st1) st1
          else
            let st1 := trackSt st token.spanStart "SELECT" (some token.text)
            POut.err (failNow st1) st1
      | none =>
          if 0 < st.pos ∧ st.tokens ≠ [] then
            match st.tokens[st.pos - 1]? with
            | some prev =>
                let st1 := trackSt st prev.spanEnd "SELECT" none
                POut.err (failNow st1) st1
            | none => POut.crash
          else
            let st1 := trackSt st 0 "SELECT" none
            POut.err (failNow st1) st1

/-- The body of `parse_select` after the keyword: projection, optional
FROM, optional WHERE, and the final `had_errors` check. -/
def parse_select_body : Nat → Bool → PState → POut SelectStmt
  | 0, _, _ => POut.spin
  | fuel + 1, hadErrors, st =>
      let c := try_consume TokenKind.Star st
      pbind (if c.1 then POut.ok [Expr.star] c.2 else parse_expr_list fuel c.2)
        fun projection st1 =>
          pbind (parse_from_clause st1) fun fromRef st2 =>
            pbind (parse_where_clause fuel st2) fun whereCl st3 =>
              if hadErrors then POut.err (failNow st3) st3
              else POut.ok ⟨projection, fromRef, whereCl⟩ st3

/-- The optional-WHERE section of `parse_select`: exact token or the
typo heuristic. -/
def parse_where_clause : Nat → PState → POut (Option Expr)
  | 0, _ => POut.spin
  | fuel + 1, st =>
      let c := try_consume TokenKind.Where st
      if c.1 then
        pbind (parse_expr_with_precedence fuel 0 c.2) fun e st1 => POut.ok (some e) st1
      else
        let w := check_for_where_typo c.2
        if w.1 then POut.err (failNow w.2) w.2
        else POut.ok none w.2

/-- `Parser::parse_with`. -/
def parse_with : Nat → PState → POut WithClause
  | 0, _ => POut.spin
  | fuel + 1, st =>
      pbind (pexpect TokenKind.With st) fun _ st1 =>
        let r := try_consume TokenKind.Recursive st1
        pbind (parse_cte fuel r.2) fun c st2 =>
          pbind (parse_cte_list_aux fuel [c] st2) fun cs st3 =>
            POut.ok (WithClause.mk r.1 cs) st3

/-- The comma loop of `parse_with`. -/
def parse_cte_list_aux : Nat → List CTE → PState → POut (List CTE)
  | 0, _, _ => POut.spin
  | fuel + 1, acc, st =>
      let c := try_consume TokenKind.Comma st
      if c.1 then
        pbind (parse_cte fuel c.2) fun ct st1 =>
          parse_cte_list_aux fuel (acc ++ [ct]) st1
      else POut.ok acc c.2

/-- `Parser::parse_cte`. -/
def parse_cte : Nat → PState → POut CTE
  | 0, _ => POut.spin
  | fuel + 1, st =>
      pbind (parse_identifier st) fun name st1 =>
        let colStep : POut (Option (List String)) :=
          match pcurrent st1 with
          | some t =>
              if t.kind = TokenKind.LeftParen then
                pbind (parse_identifier_list fuel (bump st1)) fun cols st2 =>
                  pbind (pexpect TokenKind.RightParen st2) fun _ st3 =>
                    POut.ok (some cols) st3
              else POut.ok none st1
          | none => POut.ok none st1
        pbind colStep fun columns st2 =>
          pbind (pexpect TokenKind.As st2) fun _ st3 =>
            pbind (pexpect TokenKind.LeftParen st3) fun _ st4 =>
              pbind (parse_query fuel st4) fun q st5 =>
                pbind (pexpect TokenKind.RightParen st5) fun _ st6 =>
                  POut.ok (CTE.mk name columns q) st6

/-- `Parser::parse_identifier_list`. -/
def parse_identifier_list : Nat → PState → POut (List String)
  | 0, _ => POut.spin
  | fuel + 1, st =>
      pbind (parse_identifier st) fun i st1 =>
        parse_identifier_list_aux fuel [i] st1

/-- The comma loop of `parse_identifier_list`. -/
def parse_identifier_list_aux : Nat → List String → PState → POut (List String)
  | 0, _, _ => POut.spin
  | fuel + 1, acc, st =>
      let c := try_consume TokenKind.Comma st
      if c.1 then
        pbind (parse_identifier c.2) fun i st1 =>
          parse_identifier_list_aux fuel (acc ++ [i]) st1
      else POut.ok acc c.2

/-- `Parser::parse_query`: WITH-prefixed form, or one SELECT optionally
continued by UNION [ALL] and a recursive remainder. -/
def parse_query : Nat → PState → POut Query
  | 0, _ => POut.spin
  | fuel + 1, st =>
      if (pcurrent st).map (fun t => t.kind) = some TokenKind.With then
        pbind (parse_with fuel st) fun w st1 =>
          pbind (parse_query fuel st1) fun q st2 =>
            POut.ok (Query.withQ w q) st2
      else
        pbind (parse_select fuel st) fun sel st1 =>
          let u := try_consume TokenKind.Union st1
          if u.1 then
            let a := try_consume TokenKind.All u.2
            pbind (parse_query fuel a.2) fun right st2 =>
              POut.ok (Query.union (Query.select sel) a.1 right) st2
          else POut.ok (Query.select sel) u.2

/-- `Parser::parse_statement`: try the WITH-prefixed form, rewinding on
failure; then a bare SELECT from the start position; then the phantom
INSERT/UPDATE/DELETE/WITH expectations and the tracker's best error. -/
def parse_statement : Nat → PState → POut Statement
  | 0, _ => POut.spin
  | fuel + 1, st =>
      let startPos := st.pos
      let selectAttempt : PState → POut Statement := fun s0 =>
        match parse_select fuel { s0 with pos := startPos } with
        | POut.ok sel st1 => POut.ok (Statement.query (Query.select sel)) st1
        | POut.err _ st1 =>
            let st2 := { st1 with pos := startPos }
            let st3 :=
              match pcurrent st2 with
              | some token =>
                  let a := trackSt st2 token.spanStart "INSERT" (some token.text)
                  let b := trackSt a token.spanStart "UPDATE" (some token.text)
                  let c := trackSt b token.spanStart "DELETE" (some token.text)
                  trackSt c token.spanStart "WITH" (some token.text)
              | none => st2
            POut.err (failNow st3) st3
        | POut.crash => POut.crash
        | POut.spin => POut.spin
      if (pcurrent st).map (fun t => t.kind) = some TokenKind.With then
        match parse_with fuel st with
        | POut.ok w st1 =>
            match parse_query fuel st1 with
            | POut.ok q st2 => POut.ok (Statement.query (Query.withQ w q)) st2
            | POut.err _ st2 => selectAttempt st2
            | POut.crash => POut.crash
            | POut.spin => POut.spin
        | POut.err _ st1 => selectAttempt st1
        | POut.crash => POut.crash
        | POut.spin => POut.spin
      else selectAttempt st

end

/-- `Parser::parse_expr`: precedence climbing from minimum binding power
0. -/
def parse_expr (fuel : Nat) (st : PState) : POut Expr :=
  parse_expr_with_precedence fuel 0 st

/-- `parse_sql` from `src/parser.rs`: tokenize (abstract lexer items plus
the EOF sentinel), parse a statement from position 0 with a fresh
tracker, discard the AST. -/
def parse_sql (input : String) (items : List LexItem) (fuel : Nat) : POut Unit :=
  let tokens := tokenize input items
  match parse_statement fuel (PState.mk tokens 0 none input) with
  | POut.ok _ st => POut.ok () st
  | POut.err e st => POut.err e st
  | POut.crash => POut.crash
  | POut.spin => POut.spin

/-! ## Claim C1: furthest-failure tracking -/

/-- A recorded `track_error` invocation (position, expected label, found
text), used to state claims about arbitrary call sequences. -/
structure TrackCall where
  pos : Nat
  label : String
  found : Option String
  deriving DecidableEq, Repr

/-- Run a sequence of `track_error` calls against a tracker state. -/
def runTrack (input : String) (bt : Backtrace) (calls : List TrackCall) : Backtrace :=
  calls.foldl (fun b c => track_error b c.pos c.label c.found input) bt

/-- Append a label unless already present (the same-position merge step). -/
def insertAbsent (l : List String) (x : String) : List String :=
  if x ∈ l then l else l ++ [x]

/-- First-seen-order deduplication. -/
def dedupFirst (l : List String) : List String := l.foldl insertAbsent []

/-- Greatest tracked position, starting from `m`. -/
def maxPosFrom (m : Nat) (calls : List TrackCall) : Nat :=
  calls.foldl (fun a c => max a c.pos) m

/-- Labels of the calls tracked at position `p`, in call order. -/
def labelsAt (p : Nat) (calls : List TrackCall) : List String :=
  (calls.filter fun c => c.pos = p).map fun c => c.label

theorem insertAbsent_nil (x : String) : insertAbsent [] x = [x] := rfl

theorem maxPosFrom_cons (m : Nat) (c : TrackCall) (cs : List TrackCall) :
    maxPosFrom m (c :: cs) = maxPosFrom (max m c.pos) cs := rfl

theorem le_maxPosFrom (calls : List TrackCall) : ∀ m, m ≤ maxPosFrom m calls := by
  induction calls with
  | nil => intro m; exact Nat.le_refl m
  | cons c cs ih =>
      intro m
      calc m ≤ max m c.pos := Nat.le_max_left _ _
        _ ≤ maxPosFrom (max m c.pos) cs := ih _

theorem labelsAt_cons_eq (p : Nat) (c : TrackCall) (cs : List TrackCall) (h : c.pos = p) :
    labelsAt p (c :: cs) = c.label :: labelsAt p cs := by
  simp [labelsAt, List.filter_cons, h]

theorem labelsAt_cons_ne (p : Nat) (c : TrackCall) (cs : List TrackCall) (h : ¬ c.pos = p) :
    labelsAt p (c :: cs) = labelsAt p cs := by
  simp [labelsAt, List.filter_cons, h]

/-- Core invariant of `track_error` folds starting from an installed
state: the furthest position is the max of the start position and all
tracked positions, and the expected set is the insertion-ordered merge of
the labels tracked at that furthest position (reset when the start
position is strictly exceeded). -/
theorem runTrack_some (input : String) :
    ∀ (calls : List TrackCall) (inner : BacktraceInner),
      ∃ inner', runTrack input (some inner) calls = some inner' ∧
        inner'.furthestPos = maxPosFrom inner.furthestPos calls ∧
        inner'.expected =
          (if maxPosFrom inner.furthestPos calls = inner.furthestPos then
            List.foldl insertAbsent inner.expected
              (labelsAt (maxPosFrom inner.furthestPos calls) calls)
          else dedupFirst (labelsAt (maxPosFrom inner.furthestPos calls) calls)) := by
  intro calls
  induction calls with
  | nil =>
      intro inner
      refine ⟨inner, rfl, rfl, ?_⟩
      simp [maxPosFrom, labelsAt, dedupFirst]
  | cons c cs ih =>
      intro inner
      rcases Nat.lt_trichotomy c.pos inner.furthestPos with hlt | heq | hgt
      · -- no-op call
        have hstep : track_error (some inner) c.pos c.label c.found input = some inner := by
          simp only [track_error]
          rw [if_neg (by omega), if_neg (by omega)]
        have hmax : max inner.furthestPos c.pos = inner.furthestPos := by omega
        obtain ⟨inner', h1, h2, h3⟩ := ih inner
        refine ⟨inner', ?_, ?_, ?_⟩
        · simpa [runTrack, hstep] using h1
        · rw [maxPosFrom_cons, hmax]; exact h2
        · rw [maxPosFrom_cons, hmax]
          have hne : ¬ c.pos = maxPosFrom inner.furthestPos cs := by
            have := le_maxPosFrom cs inner.furthestPos; omega
          rw [labelsAt_cons_ne _ _ _ hne]
          exact h3
      · -- same-position merge
        have hstep : track_error (some inner) c.pos c.label c.found input =
            some { inner with expected := insertAbsent inner.expected c.label } := by
          simp only [track_error]
          rw [if_neg (by omega), if_pos heq]
          by_cases hmem : c.label ∈ inner.expected
          · simp [insertAbsent, hmem]
          · simp [insertAbsent, hmem]
        have hmax : max inner.furthestPos c.pos = inner.furthestPos := by omega
        obtain ⟨inner', h1, h2, h3⟩ :=
          ih { inner with expected := insertAbsent inner.expected c.label }
        refine ⟨inner', ?_, ?_, ?_⟩
        · simpa [runTrack, hstep] using h1
        · rw [maxPosFrom_cons, hmax]; exact h2
        · rw [maxPosFrom_cons, hmax]
          by_cases hM : maxPosFrom inner.furthestPos cs = inner.furthestPos
          · rw [if_pos hM]
            rw [labelsAt_cons_eq _ _ _ (by omega)]
            simp only [List.foldl_cons]
            simpa [hM] using h3
          · rw [if_neg hM]
            have hne : ¬ c.pos = maxPosFrom inner.furthestPos cs := by
              have := le_maxPosFrom cs inner.furthestPos; omega
            rw [labelsAt_cons_ne _ _ _ hne]
            simpa [hM] using h3
      · -- strictly further: wholesale reset
        have hstep : track_error (some inner) c.pos c.label c.found input =
            some ⟨c.pos, [c.label], c.found, (position_to_line_col input c.pos).1,
              (position_to_line_col input c.pos).2⟩ := by
          simp only [track_error]
          rw [if_pos (by omega)]
        have hmax : max inner.furthestPos c.pos = c.pos := by omega
        obtain ⟨inner', h1, h2, h3⟩ :=
          ih ⟨c.pos, [c.label], c.found, (position_to_line_col input c.pos).1,
            (position_to_line_col input c.pos).2⟩
        refine ⟨inner', ?_, ?_, ?_⟩
        · simpa [runTrack, hstep] using h1
        · rw [maxPosFrom_cons, hmax]; exact h2
        · rw [maxPosFrom_cons, hmax]
          have hMge : c.pos ≤ maxPosFrom c.pos cs := le_maxPosFrom cs c.pos
          rw [if_neg (by omega)]
          by_cases hM : maxPosFrom c.pos cs = c.pos
          · rw [labelsAt_cons_eq _ _ _ hM.symm]
            simp only [dedupFirst, List.foldl_cons, insertAbsent_nil]
            simpa [hM, dedupFirst] using h3
          · rw [labelsAt_cons_ne _ _ _ (by omega)]
            simpa [hM, dedupFirst] using h3

/-- **C1**: for every sequence of `track_error` calls on a fresh
`Backtrace`, a call strictly beyond the stored furthest position replaces
the state wholesale and resets the expected set to the one new label; a
call at the stored furthest position inserts the label only if absent,
preserving first-seen order; a call strictly below leaves the state
unchanged — and the final state always describes the greatest position
ever tracked, with its labels deduplicated in insertion order, regardless
of which parse branch performed each call. -/
theorem claim_C1 :
    (∀ (inner : BacktraceInner) (pos : Nat) (label : String) (found : Option String)
        (input : String),
      (inner.furthestPos < pos →
        track_error (some inner) pos label found input =
          some ⟨pos, [label], found, (position_to_line_col input pos).1,
            (position_to_line_col input pos).2⟩) ∧
      (pos = inner.furthestPos →
        track_error (some inner) pos label found input =
          some { inner with expected := insertAbsent inner.expected label }) ∧
      (pos < inner.furthestPos →
        track_error (some inner) pos label found input = some inner)) ∧
    (∀ (input : String) (calls : List TrackCall), calls ≠ [] →
      ∃ inner', runTrack input none calls = some inner' ∧
        inner'.furthestPos = maxPosFrom 0 calls ∧
        inner'.expected = dedupFirst (labelsAt (maxPosFrom 0 calls) calls)) := by
  constructor
  · intro inner pos label found input
    refine ⟨?_, ?_, ?_⟩
    · intro hlt
      simp only [track_error]
      rw [if_pos (by omega)]
    · intro heq
      simp only [track_error]
      rw [if_neg (by omega), if_pos heq]
      by_cases hmem : label ∈ inner.expected
      · simp [insertAbsent, hmem]
      · simp [insertAbsent, hmem]
    · intro hlt
      simp only [track_error]
      rw [if_neg (by omega), if_neg (by omega)]
  · intro input calls hne
    match calls with
    | c :: cs =>
        have hstep : track_error none c.pos c.label c.found input =
            some ⟨c.pos, [c.label], c.found, (position_to_line_col input c.pos).1,
              (position_to_line_col input c.pos).2⟩ := rfl
        obtain ⟨inner', h1, h2, h3⟩ :=
          runTrack_some input cs ⟨c.pos, [c.label], c.found,
            (position_to_line_col input c.pos).1, (position_to_line_col input c.pos).2⟩
        have hM0 : maxPosFrom 0 (c :: cs) = maxPosFrom c.pos cs := by
          rw [maxPosFrom_cons]; norm_num
        refine ⟨inner', ?_, ?_, ?_⟩
        · simpa [runTrack, hstep] using h1
        · rw [hM0]; exact h2
        · rw [hM0]
          have hMge : c.pos ≤ maxPosFrom c.pos cs := le_maxPosFrom cs c.pos
          by_cases hM : maxPosFrom c.pos cs = c.pos
          · rw [labelsAt_cons_eq _ _ _ hM.symm]
            simp only [dedupFirst, List.foldl_cons, insertAbsent_nil]
            simpa [hM, dedupFirst] using h3
          · rw [labelsAt_cons_ne _ _ _ (by omega)]
            simpa [hM, dedupFirst] using h3

/-- Witness for C1 at concrete inputs: a furthest-position-9 sequence with
a duplicate label, echoing the backtracking demo in `src/error.rs`. -/
theorem claim_C1_witness :
    (track_error (some ⟨5, ["FROM"], some "x", 1, 6⟩) 9 "WHERE" (some "WHEER")
        "SELECT * FORM users" =
      some ⟨9, ["WHERE"], some "WHEER",
        (position_to_line_col "SELECT * FORM users" 9).1,
        (position_to_line_col "SELECT * FORM users" 9).2⟩) ∧
    (∃ inner', runTrack "SELECT * FORM users" none
        [⟨0, "SELECT", some "SLECT"⟩, ⟨9, "FROM", some "FORM"⟩,
          ⟨9, "FROM", some "FORM"⟩, ⟨9, ",", some "FORM"⟩, ⟨0, "INSERT", some "SLECT"⟩] =
          some inner' ∧
      inner'.furthestPos =
        maxPosFrom 0 [⟨0, "SELECT", some "SLECT"⟩, ⟨9, "FROM", some "FORM"⟩,
          ⟨9, "FROM", some "FORM"⟩, ⟨9, ",", some "FORM"⟩, ⟨0, "INSERT", some "SLECT"⟩] ∧
      inner'.expected =
        dedupFirst (labelsAt
          (maxPosFrom 0 [⟨0, "SELECT", some "SLECT"⟩, ⟨9, "FROM", some "FORM"⟩,
            ⟨9, "FROM", some "FORM"⟩, ⟨9, ",", some "FORM"⟩, ⟨0, "INSERT", some "SLECT"⟩])
          [⟨0, "SELECT", some "SLECT"⟩, ⟨9, "FROM", some "FORM"⟩,
            ⟨9, "FROM", some "FORM"⟩, ⟨9, ",", some "FORM"⟩, ⟨0, "INSERT", some "SLECT"⟩])) :=
  ⟨(claim_C1.1 ⟨5, ["FROM"], some "x", 1, 6⟩ 9 "WHERE" (some "WHEER")
      "SELECT * FORM users").1 (by decide),
    claim_C1.2 "SELECT * FORM users" _ (by decide)⟩

/-! ## Claim C8: the final diagnostic message -/

/-- Reference definition following the spec's words: `{X}` is the single
label when the expected set has exactly one member, else `"one of: "`
followed by the labels joined by `", "` in insertion order; the message
says `found '...'` when a found text is recorded and `reached end of
input` otherwise. -/
def refMessage (expected : List String) (found : Option String) : String :=
  let x :=
    if expected.length = 1 then expected.headD ""
    else "one of: " ++ String.intercalate ", " expected
  match found with
  | some f => "Expected " ++ x ++ ", found '" ++ f ++ "'"
  | none => "Expected " ++ x ++ ", reached end of input"

/-- **C8**: `get_error` agrees with the reference definition — with a
tracked failure the message is exactly `refMessage` of the recorded state,
and with no tracked failure it returns the defensive fallback
(`"Unexpected error"` at line 1, column 1, no suggestion, no context)
rather than crashing. -/
theorem claim_C8 :
    (∀ (inner : BacktraceInner) (input : String),
      (get_error (some inner) input).message = refMessage inner.expected inner.found) ∧
    (∀ input : String, get_error none input = ⟨"Unexpected error", 1, 1, none, none⟩) := by
  constructor
  · intro inner input
    simp only [get_error, refMessage]
    match h : inner.expected with
    | [] => cases inner.found <;> simp
    | [e] => cases inner.found <;> simp
    | e :: e' :: rest => cases inner.found <;> simp
  · intro input; rfl

/-! ## Claim C4: keyword suggestion -/

theorem foldl_maxBy_mem : ∀ (xs : List (String × ℚ)) (x : String × ℚ),
    xs.foldl (fun acc y => if acc.2 > y.2 then acc else y) x = x ∨
    xs.foldl (fun acc y => if acc.2 > y.2 then acc else y) x ∈ xs := by
  intro xs
  induction xs with
  | nil => intro x; left; rfl
  | cons y ys ih =>
      intro x
      simp only [List.foldl_cons]
      rcases ih (if x.2 > y.2 then x else y) with h | h
      · by_cases hc : x.2 > y.2
        · left; rw [h, if_pos hc]
        · right; rw [h, if_neg hc]; exact List.mem_cons_self y ys
      · right; exact List.mem_cons_of_mem y h

theorem foldl_maxBy_le : ∀ (xs : List (String × ℚ)) (x : String × ℚ),
    x.2 ≤ (xs.foldl (fun acc y => if acc.2 > y.2 then acc else y) x).2 ∧
    ∀ q ∈ xs, q.2 ≤ (xs.foldl (fun acc y => if acc.2 > y.2 then acc else y) x).2 := by
  intro xs
  induction xs with
  | nil => intro x; exact ⟨le_refl _, by simp⟩
  | cons y ys ih =>
      intro x
      simp only [List.foldl_cons]
      have hbase := (ih (if x.2 > y.2 then x else y)).1
      have hx : x.2 ≤ (if x.2 > y.2 then x else y).2 := by
        by_cases hc : x.2 > y.2
        · simp [hc]
        · simp only [hc, if_false]; exact le_of_not_lt hc
      have hy : y.2 ≤ (if x.2 > y.2 then x else y).2 := by
        by_cases hc : x.2 > y.2
        · simp only [hc, if_true]; exact le_of_lt hc
        · simp [hc]
      refine ⟨hx.trans hbase, ?_⟩
      intro q hq
      rcases List.mem_cons.mp hq with rfl | hq
      · exact hy.trans hbase
      · exact (ih _).2 q hq

theorem maxByLast_spec (l : List (String × ℚ)) (p : String × ℚ)
    (h : maxByLast l = some p) : p ∈ l ∧ ∀ q ∈ l, q.2 ≤ p.2 := by
  match l with
  | [] => simp [maxByLast] at h
  | x :: xs =>
      simp only [maxByLast, Option.some.injEq] at h
      subst h
      constructor
      · rcases foldl_maxBy_mem xs x with h | h
        · rw [h]; exact List.mem_cons_self x xs
        · exact List.mem_cons_of_mem x h
      · intro q hq
        rcases List.mem_cons.mp hq with rfl | hq
        · exact (foldl_maxBy_le xs q).1
        · exact (foldl_maxBy_le xs x).2 q hq

/-- Soundness of `suggest_keyword`: a suggested keyword is in the
vocabulary, scores strictly above `0.8` against the uppercased input, and
its score is maximal (not necessarily strictly) over the vocabulary. -/
theorem suggest_keyword_sound (inp k : String) (h : suggest_keyword inp = some k) :
    k ∈ KEYWORDS ∧
    jaro_winkler (toUpperStr inp).data k.data > (4 : ℚ) / 5 ∧
    ∀ k' ∈ KEYWORDS,
      jaro_winkler (toUpperStr inp).data k'.data ≤
        jaro_winkler (toUpperStr inp).data k.data := by
  simp only [suggest_keyword, Option.map_eq_some'] at h
  obtain ⟨p, hp, hpk⟩ := h
  obtain ⟨hmem, hdom⟩ := maxByLast_spec _ p hp
  rw [List.mem_filter] at hmem
  obtain ⟨hmem', hgt⟩ := hmem
  rw [List.mem_map] at hmem'
  obtain ⟨kw, hkw, hpe⟩ := hmem'
  have hgt' : p.2 > (4 : ℚ) / 5 := of_decide_eq_true hgt
  subst hpk
  cases hpe
  refine ⟨hkw, hgt', ?_⟩
  intro k' hk'
  by_cases hc : jaro_winkler (toUpperStr inp).data k'.data > (4 : ℚ) / 5
  · have hmem2 : (k', jaro_winkler (toUpperStr inp).data k'.data) ∈
        (KEYWORDS.map fun k0 => (k0, jaro_winkler (toUpperStr inp).data k0.data)).filter
          fun p0 => decide (p0.2 > (4 : ℚ) / 5) :=
      List.mem_filter.mpr ⟨List.mem_map.mpr ⟨k', hk', rfl⟩, decide_eq_true hc⟩
    exact hdom _ hmem2
  · exact le_of_lt (lt_of_le_of_lt (not_lt.mp hc) hgt')

section RatEval

attribute [local semireducible] Rat.add Rat.mul Rat.sub Rat.inv

/-- Counterexample to **C4** as stated: for the found text `"OTDER"` the
keywords `OUTER` and `ORDER` tie at the maximal score `22/25 > 0.8`, so
the best score is *not* a strict maximum, yet the code still returns a
suggestion (`max_by` keeps the last of equally maximal entries: ORDER). -/
theorem claim_C4_counterexample :
    suggest_keyword "OTDER" = some "ORDER" ∧
    jaro_winkler (toUpperStr "OTDER").data "OUTER".data =
      jaro_winkler (toUpperStr "OTDER").data "ORDER".data ∧
    jaro_winkler (toUpperStr "OTDER").data "ORDER".data > (4 : ℚ) / 5 ∧
    "OUTER" ∈ KEYWORDS ∧ "OUTER" ≠ "ORDER" := by decide

/-- **C4 (amended)**: the suggestion scores the uppercased found text
against the fixed vocabulary with Jaro-Winkler; a keyword is suggested
only if its score exceeds `0.8` and is a (not necessarily strict) maximum
over the vocabulary, the last such keyword in vocabulary order winning
ties; `"SELCT"`, `"FORM"` and `"WHEER"` yield exactly SELECT, FROM and
WHERE, and `"xyz"` yields no suggestion. -/
theorem claim_C4 :
    suggest_keyword "SELCT" = some "SELECT" ∧
    suggest_keyword "FORM" = some "FROM" ∧
    suggest_keyword "WHEER" = some "WHERE" ∧
    suggest_keyword "xyz" = none ∧
    ∀ inp k, suggest_keyword inp = some k →
      k ∈ KEYWORDS ∧
      jaro_winkler (toUpperStr inp).data k.data > (4 : ℚ) / 5 ∧
      ∀ k' ∈ KEYWORDS,
        jaro_winkler (toUpperStr inp).data k'.data ≤
          jaro_winkler (toUpperStr inp).data k.data :=
  ⟨by decide, by decide, by decide, by decide, fun inp k h => suggest_keyword_sound inp k h⟩

end RatEval

/-- Witness for C4's quantified part, applied at the concrete input
`"SELCT"` using the theorem's own first conjunct. -/
theorem claim_C4_witness :
    "SELECT" ∈ KEYWORDS ∧
    jaro_winkler (toUpperStr "SELCT").data "SELECT".data > (4 : ℚ) / 5 ∧
    ∀ k' ∈ KEYWORDS,
      jaro_winkler (toUpperStr "SELCT").data k'.data ≤
        jaro_winkler (toUpperStr "SELCT").data "SELECT".data :=
  claim_C4.2.2.2.2 "SELCT" "SELECT" claim_C4.1

/-! ## Claim C2: precedence climbing -/

/-- Token list for `"2 + 3 * 4"` (as the lexer produces it). -/
def exprToksA : List Token :=
  [⟨"2", .Number, 0, 1⟩, ⟨"+", .Plus, 2, 3⟩, ⟨"3", .Number, 4, 5⟩,
   ⟨"*", .Star, 6, 7⟩, ⟨"4", .Number, 8, 9⟩, ⟨"", .Eof, 9, 9⟩]

/-- Token list for `"a - b - c"`. -/
def exprToksB : List Token :=
  [⟨"a", .Identifier, 0, 1⟩, ⟨"-", .Minus, 2, 3⟩, ⟨"b", .Identifier, 4, 5⟩,
   ⟨"-", .Minus, 6, 7⟩, ⟨"c", .Identifier, 8, 9⟩, ⟨"", .Eof, 9, 9⟩]

/-- Token list for `"age > 18 AND status = 'active' OR admin = 1"`. -/
def exprToksC : List Token :=
  [⟨"age", .Identifier, 0, 3⟩, ⟨">", .Greater, 4, 5⟩, ⟨"18", .Number, 6, 8⟩,
   ⟨"AND", .And, 9, 12⟩, ⟨"status", .Identifier, 13, 19⟩, ⟨"=", .Equal, 20, 21⟩,
   ⟨"'active'", .String, 22, 30⟩, ⟨"OR", .Or, 31, 33⟩, ⟨"admin", .Identifier, 34, 39⟩,
   ⟨"=", .Equal, 40, 41⟩, ⟨"1", .Number, 42, 43⟩, ⟨"", .Eof, 43, 43⟩]

/-- **C2**: the fixed binding-power table (Or=10, And=20, Equal/NotEqual=30,
comparisons=40, Plus/Minus=50, Star/Slash=60, all left-associative); the
climbing loop stops when the next operator's binding power is undefined or
below `min_bp`, and otherwise recurses with `min_bp' = precedence + 1`;
`"2 + 3 * 4"` parses to `(2 + (3 * 4))`, `"a - b - c"` to `((a - b) - c)`,
and `"age > 18 AND status = 'active' OR admin = 1"` to
`(((age > 18) AND (status = 'active')) OR (admin = 1))`. -/
theorem claim_C2 :
    (get_precedence TokenKind.Or = some (10, true) ∧
     get_precedence TokenKind.And = some (20, true) ∧
     get_precedence TokenKind.Equal = some (30, true) ∧
     get_precedence TokenKind.NotEqual = some (30, true) ∧
     get_precedence TokenKind.Less = some (40, true) ∧
     get_precedence TokenKind.Greater = some (40, true) ∧
     get_precedence TokenKind.LessEqual = some (40, true) ∧
     get_precedence TokenKind.GreaterEqual = some (40, true) ∧
     get_precedence TokenKind.Plus = some (50, true) ∧
     get_precedence TokenKind.Minus = some (50, true) ∧
     get_precedence TokenKind.Star = some (60, true) ∧
     get_precedence TokenKind.Slash = some (60, true)) ∧
    (∀ fuel minPrec left st token, pcurrent st = some token →
      get_precedence token.kind = none →
      parse_expr_loop (fuel + 1) minPrec left st = POut.ok left st) ∧
    (∀ fuel minPrec left st token pb, pcurrent st = some token →
      get_precedence token.kind = some pb → pb.1 < minPrec →
      parse_expr_loop (fuel + 1) minPrec left st = POut.ok left st) ∧
    (∀ fuel minPrec left st token pb, pcurrent st = some token →
      get_precedence token.kind = some pb → ¬ pb.1 < minPrec → pb.2 = true →
      parse_expr_loop (fuel + 1) minPrec left st =
        pbind (parse_expr_with_precedence fuel (pb.1 + 1) (bump st)) fun right st2 =>
          match binOpFromToken token.kind with
          | some op => parse_expr_loop fuel minPrec (Expr.binary left op right) st2
          | none => parse_expr_loop fuel minPrec left st2) ∧
    parse_expr 32 (PState.mk exprToksA 0 none "2 + 3 * 4") =
      POut.ok (Expr.binary (Expr.literal (Literal.number 2)) BinaryOp.Plus
        (Expr.binary (Expr.literal (Literal.number 3)) BinaryOp.Multiply
          (Expr.literal (Literal.number 4))))
        (PState.mk exprToksA 5 none "2 + 3 * 4") ∧
    parse_expr 32 (PState.mk exprToksB 0 none "a - b - c") =
      POut.ok (Expr.binary
        (Expr.binary (Expr.column "a") BinaryOp.Minus (Expr.column "b"))
        BinaryOp.Minus (Expr.column "c"))
        (PState.mk exprToksB 5 none "a - b - c") ∧
    parse_expr 64 (PState.mk exprToksC 0 none "age > 18 AND status = 'active' OR admin = 1") =
      POut.ok (Expr.binary
        (Expr.binary
          (Expr.binary (Expr.column "age") BinaryOp.Greater
            (Expr.literal (Literal.number 18)))
          BinaryOp.And
          (Expr.binary (Expr.column "status") BinaryOp.Equal
            (Expr.literal (Literal.str "active"))))
        BinaryOp.Or
        (Expr.binary (Expr.column "admin") BinaryOp.Equal
          (Expr.literal (Literal.number 1))))
        (PState.mk exprToksC 11 none "age > 18 AND status = 'active' OR admin = 1") := by
  refine ⟨⟨rfl, rfl, rfl, rfl, rfl, rfl, rfl, rfl, rfl, rfl, rfl, rfl⟩, ?_, ?_, ?_, rfl, rfl, rfl⟩
  · intro fuel minPrec left st token h1 h2
    simp only [parse_expr_loop, h1, h2]
  · intro fuel minPrec left st token pb h1 h2 h3
    simp only [parse_expr_loop, h1, h2, if_pos h3]
  · intro fuel minPrec left st token pb h1 h2 h3 h4
    simp only [parse_expr_loop, h1, h2, if_neg h3, h4, if_true]

/-- Witness for C2's quantified stop cases at a concrete state (next token
is the EOF sentinel, which has no binding power). -/
theorem claim_C2_witness :
    parse_expr_loop 1 0 Expr.star (PState.mk [⟨"", .Eof, 0, 0⟩] 0 none "") =
      POut.ok Expr.star (PState.mk [⟨"", .Eof, 0, 0⟩] 0 none "") :=
  claim_C2.2.1 0 0 Expr.star (PState.mk [⟨"", .Eof, 0, 0⟩] 0 none "")
    ⟨"", .Eof, 0, 0⟩ rfl rfl

/-! ## Claim C5: primary-term failures -/

/-- `bump` never touches the tracker. -/
theorem bump_backtrace (st : PState) : (bump st).backtrace = st.backtrace := by
  unfold bump; split <;> rfl

/-- Counterexample to **C5** as stated: at a `Comma` token at span 7..8
with an empty tracker, `parse_primary` surfaces `"Expected expression"`
built from the *fallback* diagnostic (line 1, column 1) and the returned
state still carries `backtrace = none` — no entry was recorded in the
Error Tracker at the current token's position (or anywhere). -/
theorem claim_C5_counterexample :
    parse_primary 5 (PState.mk [⟨",", .Comma, 7, 8⟩, ⟨"", .Eof, 8, 8⟩] 0 none "SELECT ,") =
      POut.err ⟨"Expected expression", 1, 1, none, none⟩
        (PState.mk [⟨",", .Comma, 7, 8⟩, ⟨"", .Eof, 8, 8⟩] 0 none "SELECT ,") := rfl

/-- **C5 (amended)**: every primary-term failure — malformed `Number` or
`Float` literal text, an unexpected token, or end of input — propagates
immediately with no recovery, surfacing `error_at_current`, i.e. the
tracker's current best diagnostic (or the fallback) with only the message
replaced; no entry is recorded in the Error Tracker (its state is
unchanged). -/
theorem claim_C5 :
    (∀ fuel st token, pcurrent st = some token → token.kind = TokenKind.Number →
      parse_i64 token.text = none →
      parse_primary (fuel + 1) st =
        POut.err (error_at_current (bump st) "Invalid number") (bump st) ∧
      (bump st).backtrace = st.backtrace) ∧
    (∀ fuel st token, pcurrent st = some token → token.kind = TokenKind.Float →
      parse_f64 token.text = none →
      parse_primary (fuel + 1) st =
        POut.err (error_at_current (bump st) "Invalid float") (bump st) ∧
      (bump st).backtrace = st.backtrace) ∧
    (∀ fuel st token, pcurrent st = some token →
      token.kind ≠ TokenKind.Number → token.kind ≠ TokenKind.Float →
      token.kind ≠ TokenKind.String → token.kind ≠ TokenKind.Identifier →
      token.kind ≠ TokenKind.Star → token.kind ≠ TokenKind.LeftParen →
      parse_primary (fuel + 1) st =
        POut.err (error_at_current st "Expected expression") st) ∧
    (∀ fuel st, pcurrent st = none →
      parse_primary (fuel + 1) st =
        POut.err (error_at_current st "Unexpected end of input") st) := by
  refine ⟨?_, ?_, ?_, ?_⟩
  · intro fuel st token h1 h2 h3
    refine ⟨?_, bump_backtrace st⟩
    simp only [parse_primary, h1, h2, h3]
  · intro fuel st token h1 h2 h3
    refine ⟨?_, bump_backtrace st⟩
    simp only [parse_primary, h1, h2, h3]
  · intro fuel st token h1 h2 h3 h4 h5 h6 h7
    cases htk : token.kind <;>
      first
        | exact absurd htk h2
        | exact absurd htk h3
        | exact absurd htk h4
        | exact absurd htk h5
        | exact absurd htk h6
        | exact absurd htk h7
        | simp only [parse_primary, h1, htk]
  · intro fuel st h1
    simp only [parse_primary, h1]

/-- Witness for C5 (amended) at the `Comma` state of the counterexample. -/
theorem claim_C5_witness :
    parse_primary 5 (PState.mk [⟨",", .Comma, 7, 8⟩, ⟨"", .Eof, 8, 8⟩] 0 none "SELECT ,") =
      POut.err
        (error_at_current (PState.mk [⟨",", .Comma, 7, 8⟩, ⟨"", .Eof, 8, 8⟩] 0 none "SELECT ,")
          "Expected expression")
        (PState.mk [⟨",", .Comma, 7, 8⟩, ⟨"", .Eof, 8, 8⟩] 0 none "SELECT ,") :=
  claim_C5.2.2.1 4 (PState.mk [⟨",", .Comma, 7, 8⟩, ⟨"", .Eof, 8, 8⟩] 0 none "SELECT ,")
    ⟨",", .Comma, 7, 8⟩ rfl (by decide) (by decide) (by decide) (by decide) (by decide)
    (by decide)

/-! ## Claim C6: FROM/WHERE typo heuristics in `parse_select` -/

/-- Tracking at `pos` always leaves a recorded state whose furthest
position is at least `pos`. -/
theorem track_error_records (bt : Backtrace) (pos : Nat) (l : String)
    (f : Option String) (input : String) :
    ∃ inner, track_error bt pos l f input = some inner ∧ pos ≤ inner.furthestPos := by
  cases bt with
  | none => exact ⟨_, rfl, le_refl _⟩
  | some ex =>
      simp only [track_error]
      by_cases h1 : pos > ex.furthestPos
      · rw [if_pos h1]; exact ⟨_, rfl, le_refl _⟩
      · rw [if_neg h1]
        by_cases h2 : pos = ex.furthestPos
        · rw [if_pos h2]
          by_cases h3 : l ∈ ex.expected
          · rw [if_pos h3]; exact ⟨ex, rfl, by omega⟩
          · rw [if_neg h3]; exact ⟨_, rfl, by simp; omega⟩
        · rw [if_neg h2]; exact ⟨ex, rfl, by omega⟩

/-- **C6**: in `parse_select`'s clause sections, when the exact FROM token
is absent and the current token is an identifier whose uppercased text
starts with `F`, the clause parser fails immediately, recording `"FROM"`
at that token's position; when the exact WHERE token is absent and the
current token is an identifier starting with `W` or containing `"HER"`,
it likewise fails immediately, recording `"WHERE"`; and when neither the
exact token nor the heuristic matches, the clause is recorded as absent
(`none`) with the state untouched. -/
theorem claim_C6 :
    (∀ st token, pcurrent st = some token → token.kind ≠ TokenKind.From →
      token.kind = TokenKind.Identifier →
      (toUpperStr token.text).data.head? = some 'F' →
      parse_from_clause st =
        POut.err (failNow (trackSt st token.spanStart "FROM" (some token.text)))
          (trackSt st token.spanStart "FROM" (some token.text)) ∧
      ∃ inner,
        (trackSt st token.spanStart "FROM" (some token.text)).backtrace = some inner ∧
        token.spanStart ≤ inner.furthestPos) ∧
    (∀ fuel st token, pcurrent st = some token → token.kind ≠ TokenKind.Where →
      token.kind = TokenKind.Identifier →
      ((toUpperStr token.text).data.head? = some 'W' ∨
        listContainsSub "HER".data (toUpperStr token.text).data = true) →
      parse_where_clause (fuel + 1) st =
        POut.err (failNow (trackSt st token.spanStart "WHERE" (some token.text)))
          (trackSt st token.spanStart "WHERE" (some token.text)) ∧
      ∃ inner,
        (trackSt st token.spanStart "WHERE" (some token.text)).backtrace = some inner ∧
        token.spanStart ≤ inner.furthestPos) ∧
    (∀ st token, pcurrent st = some token → token.kind ≠ TokenKind.From →
      (token.kind = TokenKind.Identifier →
        ¬ (toUpperStr token.text).data.head? = some 'F') →
      parse_from_clause st = POut.ok none st) ∧
    (∀ fuel st token, pcurrent st = some token → token.kind ≠ TokenKind.Where →
      (token.kind = TokenKind.Identifier →
        ¬ ((toUpperStr token.text).data.head? = some 'W' ∨
          listContainsSub "HER".data (toUpperStr token.text).data = true)) →
      parse_where_clause (fuel + 1) st = POut.ok none st) := by
  refine ⟨?_, ?_, ?_, ?_⟩
  · intro st token h1 h2 h3 h4
    have hc : try_consume TokenKind.From st = (false, st) := by
      simp [try_consume, h1, h2]
    have hk : check_for_keyword_typo "FROM" ['F'] st =
        (true, trackSt st token.spanStart "FROM" (some token.text)) := by
      simp [check_for_keyword_typo, h1, h3, h4]
    refine ⟨?_, track_error_records _ _ _ _ _⟩
    simp only [parse_from_clause, hc, hk]
    simp
  · intro fuel st token h1 h2 h3 h4
    have hc : try_consume TokenKind.Where st = (false, st) := by
      simp [try_consume, h1, h2]
    have hcond : ((toUpperStr token.text).data.head? = some 'W' ||
        listContainsSub "HER".data (toUpperStr token.text).data) = true := by
      rcases h4 with h | h <;> simp [h]
    have hk : check_for_where_typo st =
        (true, trackSt st token.spanStart "WHERE" (some token.text)) := by
      simp [check_for_where_typo, h1, h3, hcond]
    refine ⟨?_, track_error_records _ _ _ _ _⟩
    simp only [parse_where_clause, hc, hk]
    simp
  · intro st token h1 h2 h3
    have hc : try_consume TokenKind.From st = (false, st) := by
      simp [try_consume, h1, h2]
    have hk : check_for_keyword_typo "FROM" ['F'] st = (false, st) := by
      by_cases hid : token.kind = TokenKind.Identifier
      · have hF : ¬ (toUpperStr token.text).data.head? = some 'F' := h3 hid
        cases hh : (toUpperStr token.text).data.head? with
        | none => simp [check_for_keyword_typo, h1, hid, hh]
        | some c =>
            have hcF : c ≠ 'F' := fun he => hF (he ▸ hh)
            simp [check_for_keyword_typo, h1, hid, hh, hcF]
      · simp [check_for_keyword_typo, h1, hid]
    simp only [parse_from_clause, hc, hk]
    simp
  · intro fuel st token h1 h2 h3
    have hc : try_consume TokenKind.Where st = (false, st) := by
      simp [try_consume, h1, h2]
    have hk : check_for_where_typo st = (false, st) := by
      by_cases hid : token.kind = TokenKind.Identifier
      · have hW := h3 hid
        push_neg at hW
        have hcond : ((toUpperStr token.text).data.head? = some 'W' ||
            listContainsSub "HER".data (toUpperStr token.text).data) = false := by
          simp [hW.1, hW.2]
        simp [check_for_where_typo, h1, hid, hcond]
      · simp [check_for_where_typo, h1, hid]
    simp only [parse_where_clause, hc, hk]
    simp

/-- Witness for C6 at concrete states: a `form` identifier where FROM was
expected, and a `wheer` identifier where WHERE was expected. -/
theorem claim_C6_witness :
    (parse_from_clause (PState.mk [⟨"form", .Identifier, 9, 13⟩, ⟨"", .Eof, 13, 13⟩] 0 none
        "SELECT * form users") =
      POut.err
        (failNow (trackSt (PState.mk [⟨"form", .Identifier, 9, 13⟩, ⟨"", .Eof, 13, 13⟩] 0 none
          "SELECT * form users") 9 "FROM" (some "form")))
        (trackSt (PState.mk [⟨"form", .Identifier, 9, 13⟩, ⟨"", .Eof, 13, 13⟩] 0 none
          "SELECT * form users") 9 "FROM" (some "form")) ∧
      ∃ inner,
        (trackSt (PState.mk [⟨"form", .Identifier, 9, 13⟩, ⟨"", .Eof, 13, 13⟩] 0 none
          "SELECT * form users") 9 "FROM" (some "form")).backtrace = some inner ∧
        9 ≤ inner.furthestPos) ∧
    parse_where_clause 3 (PState.mk [⟨"admin", .Identifier, 0, 5⟩, ⟨"", .Eof, 5, 5⟩] 0 none
        "admin") = POut.ok none
      (PState.mk [⟨"admin", .Identifier, 0, 5⟩, ⟨"", .Eof, 5, 5⟩] 0 none "admin") :=
  ⟨claim_C6.1 _ ⟨"form", .Identifier, 9, 13⟩ rfl (by decide) rfl (by decide),
    claim_C6.2.2.2 2 _ ⟨"admin", .Identifier, 0, 5⟩ rfl (by decide) (by decide)⟩

/-! ## Claim C7: UNION chaining -/

/-- **C7**: when the query does not start with WITH, one SELECT is parsed;
if a UNION token follows, an optional ALL is consumed and the remainder is
parsed recursively, producing `Union{left: Select(sel), all, right:
remainder}` — so chained UNIONs nest right-associatively, and the ALL flag
consumed after each UNION lands on the corresponding node. -/
theorem claim_C7 (fuel : Nat) (st : PState) (sel : SelectStmt) (st1 u2 a2 : PState) (a : Bool)
    (hW : ¬ (pcurrent st).map (fun t => t.kind) = some TokenKind.With)
    (hSel : parse_select fuel st = POut.ok sel st1)
    (hU : try_consume TokenKind.Union st1 = (true, u2))
    (hA : try_consume TokenKind.All u2 = (a, a2)) :
    parse_query (fuel + 1) st =
      pbind (parse_query fuel a2) fun right st2 =>
        POut.ok (Query.union (Query.select sel) a right) st2 := by
  simp only [parse_query, if_neg hW, hSel, pbind, hU, hA]
  simp

/-- Token list for `"SELECT a UNION SELECT b UNION ALL SELECT c"`. -/
def unionToks : List Token :=
  [⟨"SELECT", .Select, 0, 6⟩, ⟨"a", .Identifier, 7, 8⟩, ⟨"UNION", .Union, 9, 14⟩,
   ⟨"SELECT", .Select, 15, 21⟩, ⟨"b", .Identifier, 22, 23⟩, ⟨"UNION", .Union, 24, 29⟩,
   ⟨"ALL", .All, 30, 33⟩, ⟨"SELECT", .Select, 34, 40⟩, ⟨"c", .Identifier, 41, 42⟩,
   ⟨"", .Eof, 42, 42⟩]

/-- Witness for C7 on `"SELECT a UNION SELECT b UNION ALL SELECT c"`: the
first SELECT becomes the left child and the rest is delegated to the
recursive call (which itself yields the right-nested remainder). -/
theorem claim_C7_witness :
    parse_query 32 (PState.mk unionToks 0 none "SELECT a UNION SELECT b UNION ALL SELECT c") =
      pbind (parse_query 31
          (PState.mk unionToks 3 none "SELECT a UNION SELECT b UNION ALL SELECT c"))
        fun right st2 =>
          POut.ok (Query.union
            (Query.select (SelectStmt.mk [Expr.column "a"] none none)) false right) st2 :=
  claim_C7 31 (PState.mk unionToks 0 none "SELECT a UNION SELECT b UNION ALL SELECT c")
    (SelectStmt.mk [Expr.column "a"] none none)
    (PState.mk unionToks 2 none "SELECT a UNION SELECT b UNION ALL SELECT c")
    (PState.mk unionToks 3 none "SELECT a UNION SELECT b UNION ALL SELECT c")
    (PState.mk unionToks 3 none "SELECT a UNION SELECT b UNION ALL SELECT c")
    false (by decide) rfl rfl rfl

/-! ## Parser-state invariants

The machinery below proves, by one induction over the fuel, that every
parser method (1) never panics (`crash`), (2) keeps the token slice and
input unchanged, (3) moves the cursor monotonically and keeps it strictly
inside the token slice, and (4) only grows the tracker's furthest
position.  A second induction bounds the fuel needed, showing `spin` is
unreachable from `parse_sql` — the termination claim. -/

/-- Tracker states only ever move forward. -/
def btLe : Backtrace → Backtrace → Prop
  | none, _ => True
  | some _, none => False
  | some a, some b => a.furthestPos ≤ b.furthestPos

theorem btLe_refl : ∀ b : Backtrace, btLe b b
  | none => trivial
  | some _ => le_refl _

theorem btLe_trans : ∀ {a b c : Backtrace}, btLe a b → btLe b c → btLe a c
  | none, _, _, _, _ => trivial
  | some _, none, _, h, _ => h.elim
  | some _, some _, none, _, h => h.elim
  | some _, some _, some _, h1, h2 => le_trans h1 h2

theorem btLe_track (bt : Backtrace) (pos : Nat) (l : String) (f : Option String)
    (input : String) : btLe bt (track_error bt pos l f input) := by
  cases bt with
  | none => trivial
  | some ex =>
      simp only [track_error]
      by_cases h1 : pos > ex.furthestPos
      · rw [if_pos h1]; exact le_of_lt h1
      · rw [if_neg h1]
        by_cases h2 : pos = ex.furthestPos
        · rw [if_pos h2]
          by_cases h3 : l ∈ ex.expected
          · rw [if_pos h3]; exact le_refl _
          · rw [if_neg h3]; exact le_refl _
        · rw [if_neg h2]; exact le_refl _

/-- Well-formed parser state: cursor strictly inside the tokens, the last
token is the EOF sentinel, and every string-literal token still carries
its two quotes (the lexer guarantees both). -/
def StWf (st : PState) : Prop :=
  st.pos < st.tokens.length ∧
  (st.tokens.getLast?).map (fun t => t.kind) = some TokenKind.Eof ∧
  ∀ t ∈ st.tokens, t.kind = TokenKind.String → 2 ≤ t.text.data.length

/-- What any parser step guarantees about its resulting state. -/
def follows (st st' : PState) : Prop :=
  st'.tokens = st.tokens ∧ st'.input = st.input ∧ st.pos ≤ st'.pos ∧
  st'.pos < st.tokens.length ∧ btLe st.backtrace st'.backtrace

/-- Postcondition on a parser outcome: no crash; `ok`/`err` states follow
the input state; `strict = true` additionally promises that success
consumed at least one token.  `spin` is handled by the separate fuel
bound. -/
def postOf {α : Type} (strict : Bool) (st : PState) : POut α → Prop
  | POut.ok _ st' => follows st st' ∧ (strict = true → st.pos < st'.pos)
  | POut.err _ st' => follows st st'
  | POut.crash => False
  | POut.spin => True

theorem follows_refl {st : PState} (h : st.pos < st.tokens.length) : follows st st :=
  ⟨rfl, rfl, le_refl _, h, btLe_refl _⟩

theorem follows_trans {a b c : PState} (h1 : follows a b) (h2 : follows b c) :
    follows a c := by
  obtain ⟨t1, i1, p1, l1, b1⟩ := h1
  obtain ⟨t2, i2, p2, l2, b2⟩ := h2
  exact ⟨t2.trans t1, i2.trans i1, le_trans p1 p2, by rw [← t1]; exact l2,
    btLe_trans b1 b2⟩

theorem StWf_follows {st st' : PState} (h : StWf st) (hf : follows st st') : StWf st' := by
  obtain ⟨hpos, hlast, hstr⟩ := h
  obtain ⟨ht, _, _, hl, _⟩ := hf
  exact ⟨by rw [ht]; exact hl, by rw [ht]; exact hlast, by rw [ht]; exact hstr⟩

theorem current_some {st : PState} (h : st.pos < st.tokens.length) :
    ∃ t, pcurrent st = some t := by
  simp only [pcurrent]
  exact ⟨st.tokens[st.pos], List.getElem?_eq_getElem h⟩

theorem mem_of_pcurrent {st : PState} {t : Token} (h : pcurrent st = some t) :
    t ∈ st.tokens := by
  simp only [pcurrent] at h
  exact List.getElem?_mem h

theorem pos_lt_sub_one_of_ne_eof {st : PState} {t : Token} (h : StWf st)
    (ht : pcurrent st = some t) (hk : t.kind ≠ TokenKind.Eof) :
    st.pos < st.tokens.length - 1 := by
  obtain ⟨hpos, hlast, _⟩ := h
  by_contra hge
  have heq : st.pos = st.tokens.length - 1 := by omega
  have hlt : st.tokens.getLast? = some t := by
    rw [List.getLast?_eq_getElem?, ← heq]
    exact ht
  rw [hlt] at hlast
  simp only [Option.map_some'] at hlast
  exact hk (Option.some.injEq _ _ ▸ hlast)

theorem bump_tokens (st : PState) : (bump st).tokens = st.tokens := by
  unfold bump; split <;> rfl

theorem bump_input (st : PState) : (bump st).input = st.input := by
  unfold bump; split <;> rfl

theorem bump_pos_le (st : PState) : st.pos ≤ (bump st).pos := by
  unfold bump; split <;> simp

theorem bump_pos_lt (st : PState) (h : st.pos < st.tokens.length) :
    (bump st).pos < st.tokens.length := by
  unfold bump; split
  · simp; omega
  · exact h

theorem follows_bump {st : PState} (h : st.pos < st.tokens.length) :
    follows st (bump st) :=
  ⟨bump_tokens st, bump_input st, bump_pos_le st, bump_pos_lt st h,
    bump_backtrace st ▸ btLe_refl _⟩

theorem bump_pos_strict {st : PState} {t : Token} (h : StWf st)
    (ht : pcurrent st = some t) (hk : t.kind ≠ TokenKind.Eof) :
    st.pos < (bump st).pos := by
  have hlt := pos_lt_sub_one_of_ne_eof h ht hk
  unfold bump
  rw [if_pos hlt]
  simp

theorem trackSt_tokens (st : PState) (p : Nat) (l : String) (f : Option String) :
    (trackSt st p l f).tokens = st.tokens := rfl

theorem trackSt_pos (st : PState) (p : Nat) (l : String) (f : Option String) :
    (trackSt st p l f).pos = st.pos := rfl

theorem follows_trackSt {st : PState} (h : st.pos < st.tokens.length)
    (p : Nat) (l : String) (f : Option String) : follows st (trackSt st p l f) :=
  ⟨rfl, rfl, le_refl _, h, btLe_track _ _ _ _ _⟩

theorem postOf_ok_self {α : Type} {st : PState} (h : st.pos < st.tokens.length) (a : α) :
    postOf false st (POut.ok a st) := ⟨follows_refl h, fun h' => by cases h'⟩

/-- Sequencing: `pbind` preserves postconditions; the strictness of the
whole is inherited from either side. -/
theorem postOf_pbind {α β : Type} {st : PState} {r : POut α} {f : α → PState → POut β}
    {s s1 s2 : Bool}
    (h1 : postOf s1 st r)
    (h2 : ∀ a st', r = POut.ok a st' → postOf s2 st' (f a st'))
    (hs : s = true → s1 = true ∨ s2 = true) :
    postOf s st (pbind r f) := by
  cases r with
  | ok a st1 =>
      obtain ⟨hf1, hstrict1⟩ := h1
      have hres := h2 a st1 rfl
      simp only [pbind]
      cases hr : f a st1 with
      | ok b st2 =>
          rw [hr] at hres
          obtain ⟨hf2, hstrict2⟩ := hres
          refine ⟨follows_trans hf1 hf2, ?_⟩
          intro hstrue
          rcases hs hstrue with h | h
          · exact lt_of_lt_of_le (hstrict1 h) hf2.2.2.1
          · exact lt_of_le_of_lt hf1.2.2.1 (hstrict2 h)
      | err e st2 =>
          rw [hr] at hres
          exact follows_trans hf1 hres
      | crash => rw [hr] at hres; exact hres.elim
      | spin => trivial
  | err e st1 => exact h1
  | crash => exact h1.elim
  | spin => trivial

/-- Lifting: a postcondition relative to an intermediate state transfers
back to the original state. -/
theorem postOf_comp {α : Type} {st st1 : PState} {r : POut α} {s s1 s2 : Bool}
    (hf : follows st st1) (hs1 : s1 = true → st.pos < st1.pos)
    (h : postOf s2 st1 r) (hs : s = true → s1 = true ∨ s2 = true) :
    postOf s st r := by
  cases r with
  | ok a st2 =>
      obtain ⟨hf2, hstrict2⟩ := h
      refine ⟨follows_trans hf hf2, ?_⟩
      intro hstrue
      rcases hs hstrue with h' | h'
      · exact lt_of_lt_of_le (hs1 h') hf2.2.2.1
      · exact lt_of_le_of_lt hf.2.2.1 (hstrict2 h')
  | err e st2 => exact follows_trans hf h
  | crash => exact h.elim
  | spin => trivial

theorem postOf_weaken {α : Type} {st : PState} {r : POut α}
    (h : postOf true st r) : postOf false st r := by
  cases r with
  | ok a st' => exact ⟨h.1, fun hc => by cases hc⟩
  | err e st' => exact h
  | crash => exact h.elim
  | spin => trivial

/-- `pbind` with a strict first step. -/
theorem postOf_pbind_left {α β : Type} {st : PState} {r : POut α}
    {f : α → PState → POut β} (h1 : postOf true st r)
    (h2 : ∀ a st', r = POut.ok a st' → postOf false st' (f a st')) :
    postOf true st (pbind r f) :=
  @postOf_pbind α β st r f true true false h1 h2 (fun _ => Or.inl rfl)

/-- `pbind` with a strict second step. -/
theorem postOf_pbind_right {α β : Type} {st : PState} {r : POut α}
    {f : α → PState → POut β} (h1 : postOf false st r)
    (h2 : ∀ a st', r = POut.ok a st' → postOf true st' (f a st')) :
    postOf true st (pbind r f) :=
  @postOf_pbind α β st r f true false true h1 h2 (fun _ => Or.inr rfl)

/-- `pbind` with no strictness demanded. -/
theorem postOf_pbind_ww {α β : Type} {st : PState} {r : POut α}
    {f : α → PState → POut β} (h1 : postOf false st r)
    (h2 : ∀ a st', r = POut.ok a st' → postOf false st' (f a st')) :
    postOf false st (pbind r f) :=
  @postOf_pbind α β st r f false false false h1 h2 (fun hc => by cases hc)

/-- Lift through a strict preliminary step. -/
theorem postOf_comp_left {α : Type} {st st1 : PState} {r : POut α}
    (hf : follows st st1) (hstrict : st.pos < st1.pos) (h : postOf false st1 r) :
    postOf true st r :=
  @postOf_comp α st st1 r true true false hf (fun _ => hstrict) h (fun _ => Or.inl rfl)

/-- Lift through a non-strict preliminary step, keeping strictness. -/
theorem postOf_comp_right {α : Type} {st st1 : PState} {r : POut α}
    (hf : follows st st1) (h : postOf true st1 r) : postOf true st r :=
  @postOf_comp α st st1 r true false true hf (fun hc => by cases hc) h (fun _ => Or.inr rfl)

/-- Lift through a preliminary step, no strictness demanded. -/
theorem postOf_comp_ww {α : Type} {st st1 : PState} {r : POut α}
    (hf : follows st st1) (h : postOf false st1 r) : postOf false st r :=
  @postOf_comp α st st1 r false false false hf (fun hc => by cases hc) h
    (fun hc => by cases hc)

theorem follows_of_parts {st st' : PState} (ht : st'.tokens = st.tokens)
    (hi : st'.input = st.input) (hb : st'.backtrace = st.backtrace)
    (hp : st.pos ≤ st'.pos) (hl : st'.pos < st.tokens.length) : follows st st' :=
  ⟨ht, hi, hp, hl, by rw [hb]; exact btLe_refl _⟩

theorem follows_of_check {st1 st2 : PState} (h1 : st1.pos < st1.tokens.length)
    (ht : st2.tokens = st1.tokens) (hi : st2.input = st1.input) (hp : st2.pos = st1.pos)
    (hb : btLe st1.backtrace st2.backtrace) : follows st1 st2 :=
  ⟨ht, hi, le_of_eq hp.symm, by rw [hp]; exact h1, hb⟩

theorem pexpect_post {st : PState} (k : TokenKind) (h : StWf st)
    (hk : k ≠ TokenKind.Eof) : postOf true st (pexpect k st) := by
  obtain ⟨t, ht⟩ := current_some h.1
  simp only [pexpect, ht]
  by_cases hek : t.kind = k
  · rw [if_pos hek]
    exact ⟨follows_bump h.1, fun _ => bump_pos_strict h ht (by rw [hek]; exact hk)⟩
  · rw [if_neg hek]
    exact follows_trackSt h.1 _ _ _

theorem try_consume_post {st : PState} {k : TokenKind} {b : Bool} {st' : PState}
    (h : StWf st) (he : try_consume k st = (b, st')) :
    (st'.tokens = st.tokens ∧ st'.input = st.input ∧ st'.backtrace = st.backtrace ∧
      st.pos ≤ st'.pos ∧ st'.pos < st.tokens.length) ∧
    (b = true → k ≠ TokenKind.Eof → st.pos < st'.pos) := by
  obtain ⟨t, ht⟩ := current_some h.1
  simp only [try_consume, ht] at he
  by_cases hek : t.kind = k
  · rw [if_pos hek] at he
    cases he
    exact ⟨⟨bump_tokens st, bump_input st, bump_backtrace st, bump_pos_le st,
      bump_pos_lt st h.1⟩, fun _ hke => bump_pos_strict h ht (by rw [hek]; exact hke)⟩
  · rw [if_neg hek] at he
    cases he
    exact ⟨⟨rfl, rfl, rfl, le_refl _, h.1⟩, fun hb _ => by cases hb⟩

theorem try_consume_follows {st : PState} {k : TokenKind} {b : Bool} {st' : PState}
    (h : StWf st) (he : try_consume k st = (b, st')) : follows st st' := by
  obtain ⟨⟨ht, hi, hb, hp, hl⟩, _⟩ := try_consume_post h he
  exact follows_of_parts ht hi hb hp hl

theorem parse_identifier_post {st : PState} (h : StWf st) :
    postOf true st (parse_identifier st) := by
  obtain ⟨t, ht⟩ := current_some h.1
  simp only [parse_identifier, ht]
  by_cases hek : t.kind = TokenKind.Identifier
  · rw [if_pos hek]
    exact ⟨follows_bump h.1, fun _ => bump_pos_strict h ht (by rw [hek]; decide)⟩
  · rw [if_neg hek]
    exact follows_trackSt h.1 _ _ _

theorem check_kw_typo_post {st : PState} {kw : String} {cs : List Char} {b : Bool}
    {st' : PState} (he : check_for_keyword_typo kw cs st = (b, st')) :
    st'.tokens = st.tokens ∧ st'.input = st.input ∧ st'.pos = st.pos ∧
    btLe st.backtrace st'.backtrace := by
  cases hc : pcurrent st with
  | none =>
      simp only [check_for_keyword_typo, hc] at he
      cases he; exact ⟨rfl, rfl, rfl, btLe_refl _⟩
  | some t =>
      simp only [check_for_keyword_typo, hc] at he
      by_cases hid : t.kind = TokenKind.Identifier
      · rw [if_pos hid] at he
        cases hh : (toUpperStr t.text).data.head? with
        | none => simp only [hh] at he; cases he; exact ⟨rfl, rfl, rfl, btLe_refl _⟩
        | some c =>
            simp only [hh] at he
            by_cases hmem : c ∈ cs
            · rw [if_pos hmem] at he; cases he
              exact ⟨rfl, rfl, rfl, btLe_track _ _ _ _ _⟩
            · rw [if_neg hmem] at he; cases he; exact ⟨rfl, rfl, rfl, btLe_refl _⟩
      · rw [if_neg hid] at he; cases he; exact ⟨rfl, rfl, rfl, btLe_refl _⟩

theorem check_where_typo_post {st : PState} {b : Bool} {st' : PState}
    (he : check_for_where_typo st = (b, st')) :
    st'.tokens = st.tokens ∧ st'.input = st.input ∧ st'.pos = st.pos ∧
    btLe st.backtrace st'.backtrace := by
  cases hc : pcurrent st with
  | none =>
      simp only [check_for_where_typo, hc] at he
      cases he; exact ⟨rfl, rfl, rfl, btLe_refl _⟩
  | some t =>
      simp only [check_for_where_typo, hc] at he
      by_cases hid : t.kind = TokenKind.Identifier
      · rw [if_pos hid] at he
        by_cases hcond : ((toUpperStr t.text).data.head? = some 'W' ||
            listContainsSub "HER".data (toUpperStr t.text).data) = true
        · rw [if_pos hcond] at he
          cases he
          exact ⟨rfl, rfl, rfl, btLe_track _ _ _ _ _⟩
        · rw [if_neg hcond] at he
          cases he
          exact ⟨rfl, rfl, rfl, btLe_refl _⟩
      · rw [if_neg hid] at he; cases he; exact ⟨rfl, rfl, rfl, btLe_refl _⟩

theorem check_specific_where_post {st : PState} {b : Bool} {st' : PState}
    (he : check_for_specific_where_typos st = (b, st')) :
    st'.tokens = st.tokens ∧ st'.input = st.input ∧ st'.pos = st.pos ∧
    btLe st.backtrace st'.backtrace := by
  cases hc : pcurrent st with
  | none =>
      simp only [check_for_specific_where_typos, hc] at he
      cases he; exact ⟨rfl, rfl, rfl, btLe_refl _⟩
  | some t =>
      simp only [check_for_specific_where_typos, hc] at he
      by_cases hid : t.kind = TokenKind.Identifier
      · rw [if_pos hid] at he
        by_cases hcond : (listPrefix "WHEER".data (toUpperStr t.text).data ||
            listPrefix "WHER".data (toUpperStr t.text).data ||
            listPrefix "WHRE".data (toUpperStr t.text).data ||
            (toUpperStr t.text).data == "WHEER".data) = true
        · rw [if_pos hcond] at he
          cases he
          exact ⟨rfl, rfl, rfl, btLe_track _ _ _ _ _⟩
        · rw [if_neg hcond] at he
          cases he
          exact ⟨rfl, rfl, rfl, btLe_refl _⟩
      · rw [if_neg hid] at he; cases he; exact ⟨rfl, rfl, rfl, btLe_refl _⟩

theorem parse_table_ref_post {st : PState} (h : StWf st) :
    postOf true st (parse_table_ref st) := by
  unfold parse_table_ref
  refine postOf_pbind_left (parse_identifier_post h) ?_
  intro name st1 hid
  have hpost := parse_identifier_post h
  rw [hid] at hpost
  obtain ⟨hf1, _⟩ := hpost
  have hwf1 : StWf st1 := StWf_follows h hf1
  rcases htc : try_consume TokenKind.As st1 with ⟨b, st2⟩
  have hf2 : follows st1 st2 := try_consume_follows hwf1 htc
  have hwf2 : StWf st2 := StWf_follows hwf1 hf2
  simp only [htc]
  by_cases hbb : b = true
  · subst hbb
    simp only [if_true]
    refine postOf_comp_ww hf2 ?_
    refine postOf_pbind_ww (postOf_weaken (parse_identifier_post hwf2)) ?_
    intro al st3 hal
    have hpost3 := parse_identifier_post hwf2
    rw [hal] at hpost3
    exact postOf_ok_self (StWf_follows hwf2 hpost3.1).1 _
  · simp only [hbb, Bool.false_eq_true, if_false]
    split
    · rename_i t hcur
      by_cases hid2 : t.kind = TokenKind.Identifier
      · rw [if_pos hid2]
        rcases hck : check_for_specific_where_typos st2 with ⟨w, st3⟩
        obtain ⟨ht3, hi3, hp3, hb3⟩ := check_specific_where_post hck
        have hf3 : follows st2 st3 := follows_of_check hwf2.1 ht3 hi3 hp3 hb3
        have hwf3 : StWf st3 := StWf_follows hwf2 hf3
        simp only [hck]
        by_cases hww : w = true
        · subst hww
          simp only [if_true]
          exact follows_trans hf2 hf3
        · simp only [hww, Bool.false_eq_true, if_false]
          refine postOf_comp_ww (follows_trans hf2 hf3) ?_
          refine postOf_pbind_ww (postOf_weaken (parse_identifier_post hwf3)) ?_
          intro al st4 hal
          have hpost4 := parse_identifier_post hwf3
          rw [hal] at hpost4
          exact postOf_ok_self (StWf_follows hwf3 hpost4.1).1 _
      · rw [if_neg hid2]
        exact ⟨hf2, fun hc => by cases hc⟩
    · exact ⟨hf2, fun hc => by cases hc⟩

theorem parse_from_clause_post {st : PState} (h : StWf st) :
    postOf false st (parse_from_clause st) := by
  unfold parse_from_clause
  rcases htc : try_consume TokenKind.From st with ⟨b, st1⟩
  have hf1 : follows st st1 := try_consume_follows h htc
  have hwf1 : StWf st1 := StWf_follows h hf1
  simp only [htc]
  by_cases hbb : b = true
  · subst hbb
    simp only [if_true]
    refine postOf_comp_ww hf1 ?_
    refine postOf_pbind_ww (postOf_weaken (parse_table_ref_post hwf1)) ?_
    intro tr st2 htr
    have hpost2 := parse_table_ref_post hwf1
    rw [htr] at hpost2
    exact postOf_ok_self (StWf_follows hwf1 hpost2.1).1 _
  · simp only [hbb, Bool.false_eq_true, if_false]
    rcases hck : check_for_keyword_typo "FROM" ['F'] st1 with ⟨w, st2⟩
    obtain ⟨ht2, hi2, hp2, hb2⟩ := check_kw_typo_post hck
    have hf2 : follows st1 st2 := follows_of_check hwf1.1 ht2 hi2 hp2 hb2
    simp only [hck]
    by_cases hww : w = true
    · subst hww
      simp only [if_true]
      exact follows_trans hf1 hf2
    · simp only [hww, Bool.false_eq_true, if_false]
      exact ⟨follows_trans hf1 hf2, fun hc => by cases hc⟩

theorem post_ok_follows {α : Type} {st st' : PState} {a : α} {r : POut α} {s : Bool}
    (hpost : postOf s st r) (he : r = POut.ok a st') : follows st st' := by
  subst he; exact hpost.1

theorem post_err_follows {α : Type} {st st' : PState} {e : ParseError} {r : POut α}
    {s : Bool} (hpost : postOf s st r) (he : r = POut.err e st') : follows st st' := by
  subst he; exact hpost

theorem StWf_of_ok {α : Type} {st st' : PState} {a : α} {r : POut α} {s : Bool}
    (hwf : StWf st) (hpost : postOf s st r) (he : r = POut.ok a st') : StWf st' :=
  StWf_follows hwf (post_ok_follows hpost he)

theorem pcurrent_trackSt (st : PState) (p : Nat) (l : String) (f : Option String) :
    pcurrent (trackSt st p l f) = pcurrent st := rfl

/-- The joint invariant at fuel `n`: every parser method preserves
well-formedness, never crashes, and the strict ones consume on success. -/
structure G1At (n : Nat) : Prop where
  primary : ∀ st, StWf st → postOf true st (parse_primary n st)
  prec : ∀ minPrec st, StWf st → postOf true st (parse_expr_with_precedence n minPrec st)
  eloop : ∀ minPrec left st, StWf st → postOf false st (parse_expr_loop n minPrec left st)
  elist : ∀ st, StWf st → postOf true st (parse_expr_list n st)
  elistAux : ∀ acc st, StWf st → postOf false st (parse_expr_list_aux n acc st)
  psel : ∀ st, StWf st → postOf true st (parse_select n st)
  pbody : ∀ he st, StWf st → postOf false st (parse_select_body n he st)
  pwhere : ∀ st, StWf st → postOf false st (parse_where_clause n st)
  pwith : ∀ st, StWf st → postOf true st (parse_with n st)
  cteAux : ∀ acc st, StWf st → postOf false st (parse_cte_list_aux n acc st)
  cte : ∀ st, StWf st → postOf true st (parse_cte n st)
  idl : ∀ st, StWf st → postOf true st (parse_identifier_list n st)
  idlAux : ∀ acc st, StWf st → postOf false st (parse_identifier_list_aux n acc st)
  query : ∀ st, StWf st → postOf true st (parse_query n st)
  stmt : ∀ st, StWf st → postOf false st (parse_statement n st)

theorem G1_primary (n : Nat) (ih : G1At n) :
    ∀ st, StWf st → postOf true st (parse_primary (n + 1) st) := by
  intro st h
  obtain ⟨t, ht⟩ := current_some h.1
  simp only [parse_primary, ht]
  split
  · rename_i htk
    cases hpi : parse_i64 t.text with
    | some v =>
        exact ⟨follows_bump h.1, fun _ => bump_pos_strict h ht (by rw [htk]; decide)⟩
    | none => exact follows_bump h.1
  · rename_i htk
    cases hpf : parse_f64 t.text with
    | some v =>
        exact ⟨follows_bump h.1, fun _ => bump_pos_strict h ht (by rw [htk]; decide)⟩
    | none => exact follows_bump h.1
  · rename_i htk
    have hlen := h.2.2 t (mem_of_pcurrent ht) htk
    rw [if_neg (by omega)]
    exact ⟨follows_bump h.1, fun _ => bump_pos_strict h ht (by rw [htk]; decide)⟩
  · rename_i htk
    exact ⟨follows_bump h.1, fun _ => bump_pos_strict h ht (by rw [htk]; decide)⟩
  · rename_i htk
    exact ⟨follows_bump h.1, fun _ => bump_pos_strict h ht (by rw [htk]; decide)⟩
  · rename_i htk
    have hstrict := bump_pos_strict h ht (by rw [htk]; decide)
    have hwf1 : StWf (bump st) := StWf_follows h (follows_bump h.1)
    refine postOf_comp_left (follows_bump h.1) hstrict ?_
    refine postOf_pbind_ww (postOf_weaken (ih.prec 0 (bump st) hwf1)) ?_
    intro e st2 he
    have hwf2 := StWf_of_ok hwf1 (ih.prec 0 (bump st) hwf1) he
    refine postOf_pbind_ww (postOf_weaken (pexpect_post TokenKind.RightParen hwf2 (by decide))) ?_
    intro tok st3 htok
    exact postOf_ok_self
      (StWf_of_ok hwf2 (pexpect_post TokenKind.RightParen hwf2 (by decide)) htok).1 _
  · exact follows_refl h.1

theorem G1_prec (n : Nat) (ih : G1At n) :
    ∀ minPrec st, StWf st → postOf true st (parse_expr_with_precedence (n + 1) minPrec st) := by
  intro minPrec st h
  simp only [parse_expr_with_precedence]
  refine postOf_pbind_left (ih.primary st h) ?_
  intro left st1 he
  exact ih.eloop minPrec left st1 (StWf_of_ok h (ih.primary st h) he)

theorem G1_eloop (n : Nat) (ih : G1At n) :
    ∀ minPrec left st, StWf st → postOf false st (parse_expr_loop (n + 1) minPrec left st) := by
  intro minPrec left st h
  simp only [parse_expr_loop]
  split
  · exact postOf_ok_self h.1 _
  · rename_i token hcur
    split
    · exact postOf_ok_self h.1 _
    · rename_i pb hprec
      split
      · exact postOf_ok_self h.1 _
      · have hk : token.kind ≠ TokenKind.Eof := by
          intro hE; rw [hE] at hprec; cases hprec
        have hf1 := follows_bump h.1
        have hwf1 : StWf (bump st) := StWf_follows h hf1
        refine postOf_comp_ww hf1 ?_
        refine postOf_pbind_ww
          (postOf_weaken (ih.prec (if pb.2 then pb.1 + 1 else pb.1) (bump st) hwf1)) ?_
        intro right st2 he
        have hwf2 := StWf_of_ok hwf1
          (ih.prec (if pb.2 then pb.1 + 1 else pb.1) (bump st) hwf1) he
        split
        · exact ih.eloop minPrec _ st2 hwf2
        · exact ih.eloop minPrec left st2 hwf2

theorem G1_elist (n : Nat) (ih : G1At n) :
    ∀ st, StWf st → postOf true st (parse_expr_list (n + 1) st) := by
  intro st h
  simp only [parse_expr_list]
  refine postOf_pbind_left (ih.prec 0 st h) ?_
  intro e st1 he
  exact ih.elistAux [e] st1 (StWf_of_ok h (ih.prec 0 st h) he)

theorem G1_elistAux (n : Nat) (ih : G1At n) :
    ∀ acc st, StWf st → postOf false st (parse_expr_list_aux (n + 1) acc st) := by
  intro acc st h
  simp only [parse_expr_list_aux]
  rcases htc : try_consume TokenKind.Comma st with ⟨b, st1⟩
  simp only [htc]
  have hf1 := try_consume_follows h htc
  have hwf1 := StWf_follows h hf1
  by_cases hbb : b = true
  · subst hbb
    simp only [if_true]
    refine postOf_comp_ww hf1 ?_
    refine postOf_pbind_ww (postOf_weaken (ih.prec 0 st1 hwf1)) ?_
    intro e st2 he
    exact ih.elistAux (acc ++ [e]) st2 (StWf_of_ok hwf1 (ih.prec 0 st1 hwf1) he)
  · simp only [hbb, Bool.false_eq_true, if_false]
    exact postOf_comp_ww hf1 (postOf_ok_self hwf1.1 _)

theorem G1_pwhere (n : Nat) (ih : G1At n) :
    ∀ st, StWf st → postOf false st (parse_where_clause (n + 1) st) := by
  intro st h
  simp only [parse_where_clause]
  rcases htc : try_consume TokenKind.Where st with ⟨b, st1⟩
  simp only [htc]
  have hf1 := try_consume_follows h htc
  have hwf1 := StWf_follows h hf1
  by_cases hbb : b = true
  · subst hbb
    simp only [if_true]
    refine postOf_comp_ww hf1 ?_
    refine postOf_pbind_ww (postOf_weaken (ih.prec 0 st1 hwf1)) ?_
    intro e st2 he
    exact postOf_ok_self (StWf_of_ok hwf1 (ih.prec 0 st1 hwf1) he).1 _
  · simp only [hbb, Bool.false_eq_true, if_false]
    rcases hck : check_for_where_typo st1 with ⟨w, st2⟩
    simp only [hck]
    obtain ⟨ht2, hi2, hp2, hb2⟩ := check_where_typo_post hck
    have hf2 := follows_of_check hwf1.1 ht2 hi2 hp2 hb2
    by_cases hww : w = true
    · subst hww
      simp only [if_true]
      exact follows_trans hf1 hf2
    · simp only [hww, Bool.false_eq_true, if_false]
      exact ⟨follows_trans hf1 hf2, fun hc => by cases hc⟩

theorem G1_pbody (n : Nat) (ih : G1At n) :
    ∀ he st, StWf st → postOf false st (parse_select_body (n + 1) he st) := by
  intro hadErrors st h
  simp only [parse_select_body]
  rcases htc : try_consume TokenKind.Star st with ⟨b, st1⟩
  simp only [htc]
  have hf1 := try_consume_follows h htc
  have hwf1 := StWf_follows h hf1
  have hfirst : postOf false st
      (if b = true then POut.ok [Expr.star] st1 else parse_expr_list n st1) := by
    by_cases hbb : b = true
    · subst hbb
      simp only [if_true]
      exact ⟨hf1, fun hc => by cases hc⟩
    · simp only [hbb, Bool.false_eq_true, if_false]
      exact postOf_comp_ww hf1 (postOf_weaken (ih.elist st1 hwf1))
  refine postOf_pbind_ww hfirst ?_
  intro projection st2 hproj
  have hwf2 := StWf_of_ok h hfirst hproj
  refine postOf_pbind_ww (parse_from_clause_post hwf2) ?_
  intro fromRef st3 hfrom
  have hwf3 := StWf_of_ok hwf2 (parse_from_clause_post hwf2) hfrom
  refine postOf_pbind_ww (ih.pwhere st3 hwf3) ?_
  intro whereCl st4 hwhere
  have hwf4 := StWf_of_ok hwf3 (ih.pwhere st3 hwf3) hwhere
  by_cases hhe : hadErrors = true
  · subst hhe
    simp only [if_true]
    exact follows_refl hwf4.1
  · simp only [hhe, Bool.false_eq_true, if_false]
    exact postOf_ok_self hwf4.1 _

theorem G1_psel (n : Nat) (ih : G1At n) :
    ∀ st, StWf st → postOf true st (parse_select (n + 1) st) := by
  intro st h
  obtain ⟨t, ht⟩ := current_some h.1
  simp only [parse_select, ht]
  by_cases hsel : t.kind = TokenKind.Select
  · rw [if_pos hsel]
    refine postOf_comp_left (follows_bump h.1)
      (bump_pos_strict h ht (by rw [hsel]; decide)) ?_
    exact ih.pbody false (bump st) (StWf_follows h (follows_bump h.1))
  · rw [if_neg hsel]
    by_cases hid : t.kind = TokenKind.Identifier
    · rw [if_pos hid]
      have hfT : follows st (trackSt st t.spanStart "SELECT" (some t.text)) :=
        follows_trackSt h.1 _ _ _
      have hwfT := StWf_follows h hfT
      have htT : pcurrent (trackSt st t.spanStart "SELECT" (some t.text)) = some t := ht
      split
      · have hstrict : st.pos < (bump (trackSt st t.spanStart "SELECT" (some t.text))).pos :=
          bump_pos_strict hwfT htT (by rw [hid]; decide)
        refine postOf_comp_left (follows_trans hfT (follows_bump hwfT.1)) hstrict ?_
        exact ih.pbody true _ (StWf_follows hwfT (follows_bump hwfT.1))
      · exact hfT
    · rw [if_neg hid]
      exact follows_trackSt h.1 _ _ _

theorem G1_pwith (n : Nat) (ih : G1At n) :
    ∀ st, StWf st → postOf true st (parse_with (n + 1) st) := by
  intro st h
  simp only [parse_with]
  refine postOf_pbind_left (pexpect_post TokenKind.With h (by decide)) ?_
  intro tok st1 he
  have hwf1 := StWf_of_ok h (pexpect_post TokenKind.With h (by decide)) he
  rcases htc : try_consume TokenKind.Recursive st1 with ⟨r, st2⟩
  simp only [htc]
  have hf2 := try_consume_follows hwf1 htc
  have hwf2 := StWf_follows hwf1 hf2
  refine postOf_comp_ww hf2 ?_
  refine postOf_pbind_ww (postOf_weaken (ih.cte st2 hwf2)) ?_
  intro c st3 hc
  have hwf3 := StWf_of_ok hwf2 (ih.cte st2 hwf2) hc
  refine postOf_pbind_ww (ih.cteAux [c] st3 hwf3) ?_
  intro cs st4 hcs
  exact postOf_ok_self (StWf_of_ok hwf3 (ih.cteAux [c] st3 hwf3) hcs).1 _

theorem G1_cteAux (n : Nat) (ih : G1At n) :
    ∀ acc st, StWf st → postOf false st (parse_cte_list_aux (n + 1) acc st) := by
  intro acc st h
  simp only [parse_cte_list_aux]
  rcases htc : try_consume TokenKind.Comma st with ⟨b, st1⟩
  simp only [htc]
  have hf1 := try_consume_follows h htc
  have hwf1 := StWf_follows h hf1
  by_cases hbb : b = true
  · subst hbb
    simp only [if_true]
    refine postOf_comp_ww hf1 ?_
    refine postOf_pbind_ww (postOf_weaken (ih.cte st1 hwf1)) ?_
    intro ct st2 hct
    exact ih.cteAux (acc ++ [ct]) st2 (StWf_of_ok hwf1 (ih.cte st1 hwf1) hct)
  · simp only [hbb, Bool.false_eq_true, if_false]
    exact postOf_comp_ww hf1 (postOf_ok_self hwf1.1 _)

theorem G1_cte (n : Nat) (ih : G1At n) :
    ∀ st, StWf st → postOf true st (parse_cte (n + 1) st) := by
  intro st h
  simp only [parse_cte]
  refine postOf_pbind_left (parse_identifier_post h) ?_
  intro name st1 hname
  have hwf1 := StWf_of_ok h (parse_identifier_post h) hname
  have hcol : postOf false st1
      (match pcurrent st1 with
       | some t =>
           if t.kind = TokenKind.LeftParen then
             pbind (parse_identifier_list n (bump st1)) fun cols st2 =>
               pbind (pexpect TokenKind.RightParen st2) fun _ st3 =>
                 POut.ok (some cols) st3
           else POut.ok none st1
       | none => POut.ok none st1) := by
    split
    · rename_i t hcur
      by_cases hlp : t.kind = TokenKind.LeftParen
      · rw [if_pos hlp]
        have hfb := follows_bump hwf1.1
        have hwfb := StWf_follows hwf1 hfb
        refine postOf_comp_ww hfb ?_
        refine postOf_pbind_ww (postOf_weaken (ih.idl (bump st1) hwfb)) ?_
        intro cols st2 hcols
        have hwf2 := StWf_of_ok hwfb (ih.idl (bump st1) hwfb) hcols
        refine postOf_pbind_ww
          (postOf_weaken (pexpect_post TokenKind.RightParen hwf2 (by decide))) ?_
        intro tok st3 htok
        exact postOf_ok_self
          (StWf_of_ok hwf2 (pexpect_post TokenKind.RightParen hwf2 (by decide)) htok).1 _
      · rw [if_neg hlp]
        exact postOf_ok_self hwf1.1 _
    · exact postOf_ok_self hwf1.1 _
  refine postOf_pbind_ww hcol ?_
  intro columns st2 hcols2
  have hwf2 := StWf_of_ok hwf1 hcol hcols2
  refine postOf_pbind_ww (postOf_weaken (pexpect_post TokenKind.As hwf2 (by decide))) ?_
  intro tok3 st3 h3
  have hwf3 := StWf_of_ok hwf2 (pexpect_post TokenKind.As hwf2 (by decide)) h3
  refine postOf_pbind_ww (postOf_weaken (pexpect_post TokenKind.LeftParen hwf3 (by decide))) ?_
  intro tok4 st4 h4
  have hwf4 := StWf_of_ok hwf3 (pexpect_post TokenKind.LeftParen hwf3 (by decide)) h4
  refine postOf_pbind_ww (postOf_weaken (ih.query st4 hwf4)) ?_
  intro q st5 h5
  have hwf5 := StWf_of_ok hwf4 (ih.query st4 hwf4) h5
  refine postOf_pbind_ww (postOf_weaken (pexpect_post TokenKind.RightParen hwf5 (by decide))) ?_
  intro tok6 st6 h6
  exact postOf_ok_self
    (StWf_of_ok hwf5 (pexpect_post TokenKind.RightParen hwf5 (by decide)) h6).1 _

theorem G1_idl (n : Nat) (ih : G1At n) :
    ∀ st, StWf st → postOf true st (parse_identifier_list (n + 1) st) := by
  intro st h
  simp only [parse_identifier_list]
  refine postOf_pbind_left (parse_identifier_post h) ?_
  intro i st1 hi
  exact ih.idlAux [i] st1 (StWf_of_ok h (parse_identifier_post h) hi)

theorem G1_idlAux (n : Nat) (ih : G1At n) :
    ∀ acc st, StWf st → postOf false st (parse_identifier_list_aux (n + 1) acc st) := by
  intro acc st h
  simp only [parse_identifier_list_aux]
  rcases htc : try_consume TokenKind.Comma st with ⟨b, st1⟩
  simp only [htc]
  have hf1 := try_consume_follows h htc
  have hwf1 := StWf_follows h hf1
  by_cases hbb : b = true
  · subst hbb
    simp only [if_true]
    refine postOf_comp_ww hf1 ?_
    refine postOf_pbind_ww (postOf_weaken (parse_identifier_post hwf1)) ?_
    intro i st2 hi
    exact ih.idlAux (acc ++ [i]) st2 (StWf_of_ok hwf1 (parse_identifier_post hwf1) hi)
  · simp only [hbb, Bool.false_eq_true, if_false]
    exact postOf_comp_ww hf1 (postOf_ok_self hwf1.1 _)

theorem G1_query (n : Nat) (ih : G1At n) :
    ∀ st, StWf st → postOf true st (parse_query (n + 1) st) := by
  intro st h
  simp only [parse_query]
  by_cases hW : (pcurrent st).map (fun t => t.kind) = some TokenKind.With
  · rw [if_pos hW]
    refine postOf_pbind_left (ih.pwith st h) ?_
    intro w st1 hw
    have hwf1 := StWf_of_ok h (ih.pwith st h) hw
    refine postOf_pbind_ww (postOf_weaken (ih.query st1 hwf1)) ?_
    intro q st2 hq
    exact postOf_ok_self (StWf_of_ok hwf1 (ih.query st1 hwf1) hq).1 _
  · rw [if_neg hW]
    refine postOf_pbind_left (ih.psel st h) ?_
    intro sel st1 hsel
    have hwf1 := StWf_of_ok h (ih.psel st h) hsel
    rcases htc : try_consume TokenKind.Union st1 with ⟨u, st2⟩
    simp only [htc]
    have hf2 := try_consume_follows hwf1 htc
    have hwf2 := StWf_follows hwf1 hf2
    by_cases huu : u = true
    · subst huu
      simp only [if_true]
      rcases hta : try_consume TokenKind.All st2 with ⟨a, st3⟩
      simp only [hta]
      have hf3 := try_consume_follows hwf2 hta
      have hwf3 := StWf_follows hwf2 hf3
      refine postOf_comp_ww (follows_trans hf2 hf3) ?_
      refine postOf_pbind_ww (postOf_weaken (ih.query st3 hwf3)) ?_
      intro right st4 hr
      exact postOf_ok_self (StWf_of_ok hwf3 (ih.query st3 hwf3) hr).1 _
    · simp only [huu, Bool.false_eq_true, if_false]
      exact postOf_comp_ww hf2 (postOf_ok_self hwf2.1 _)

theorem G1_stmt (n : Nat) (ih : G1At n) :
    ∀ st, StWf st → postOf false st (parse_statement (n + 1) st) := by
  intro st h
  simp only [parse_statement]
  have hAttempt : ∀ s0 : PState, follows st s0 →
      postOf false st
        (match parse_select n { s0 with pos := st.pos } with
         | POut.ok sel st1 => POut.ok (Statement.query (Query.select sel)) st1
         | POut.err _ st1 =>
             let st2 := { st1 with pos := st.pos }
             let st3 :=
               match pcurrent st2 with
               | some token =>
                   let a := trackSt st2 token.spanStart "INSERT" (some token.text)
                   let b := trackSt a token.spanStart "UPDATE" (some token.text)
                   let c := trackSt b token.spanStart "DELETE" (some token.text)
                   trackSt c token.spanStart "WITH" (some token.text)
               | none => st2
             POut.err (failNow st3) st3
         | POut.crash => POut.crash
         | POut.spin => POut.spin) := by
    intro s0 hf0
    have hf0' : follows st { s0 with pos := st.pos } :=
      ⟨hf0.1, hf0.2.1, le_refl _, h.1, hf0.2.2.2.2⟩
    have hwf0' : StWf { s0 with pos := st.pos } := StWf_follows h hf0'
    have hpost := ih.psel { s0 with pos := st.pos } hwf0'
    split
    · rename_i sel st1 hps
      exact ⟨follows_trans hf0' (post_ok_follows hpost hps), fun hc => by cases hc⟩
    · rename_i e st1 hps
      have hf1 : follows { s0 with pos := st.pos } st1 := post_err_follows hpost hps
      have hf2 : follows st { st1 with pos := st.pos } :=
        ⟨hf1.1.trans hf0'.1, hf1.2.1.trans hf0'.2.1, le_refl _, h.1,
          btLe_trans hf0'.2.2.2.2 hf1.2.2.2.2⟩
      have hwf2 : StWf { st1 with pos := st.pos } := StWf_follows h hf2
      obtain ⟨tok, htok⟩ := current_some hwf2.1
      simp only [htok]
      refine follows_trans hf2 ?_
      exact ⟨rfl, rfl, le_refl _, hwf2.1,
        btLe_trans (btLe_track _ _ _ _ _)
          (btLe_trans (btLe_track _ _ _ _ _)
            (btLe_trans (btLe_track _ _ _ _ _) (btLe_track _ _ _ _ _)))⟩
    · rename_i hps
      rw [hps] at hpost
      exact hpost.elim
    · trivial
  by_cases hW : (pcurrent st).map (fun t => t.kind) = some TokenKind.With
  · rw [if_pos hW]
    split
    · rename_i w st1 hpw
      have hwf1 := StWf_of_ok h (ih.pwith st h) hpw
      split
      · rename_i q st2 hpq
        exact ⟨follows_trans (post_ok_follows (ih.pwith st h) hpw)
          (post_ok_follows (ih.query st1 hwf1) hpq), fun hc => by cases hc⟩
      · rename_i e st2 hpq
        exact hAttempt st2 (follows_trans (post_ok_follows (ih.pwith st h) hpw)
          (post_err_follows (ih.query st1 hwf1) hpq))
      · rename_i hpq
        have := ih.query st1 hwf1
        rw [hpq] at this
        exact this.elim
      · trivial
    · rename_i e st1 hpw
      exact hAttempt st1 (post_err_follows (ih.pwith st h) hpw)
    · rename_i hpw
      have := ih.pwith st h
      rw [hpw] at this
      exact this.elim
    · trivial
  · rw [if_neg hW]
    exact hAttempt st (follows_refl h.1)

/-- The joint invariant holds at every fuel. -/
theorem G1 : ∀ n, G1At n := by
  intro n
  induction n with
  | zero =>
      exact ⟨fun _ _ => trivial, fun _ _ _ => trivial, fun _ _ _ _ => trivial,
        fun _ _ => trivial, fun _ _ _ => trivial, fun _ _ => trivial,
        fun _ _ _ => trivial, fun _ _ => trivial, fun _ _ => trivial,
        fun _ _ _ => trivial, fun _ _ => trivial, fun _ _ => trivial,
        fun _ _ _ => trivial, fun _ _ => trivial, fun _ _ => trivial⟩
  | succ n ih =>
      exact ⟨G1_primary n ih, G1_prec n ih, G1_eloop n ih, G1_elist n ih,
        G1_elistAux n ih, G1_psel n ih, G1_pbody n ih, G1_pwhere n ih,
        G1_pwith n ih, G1_cteAux n ih, G1_cte n ih, G1_idl n ih,
        G1_idlAux n ih, G1_query n ih, G1_stmt n ih⟩

/-! ### Fuel sufficiency: `spin` is unreachable with enough fuel -/

theorem rem_le_of_follows {st st1 : PState} (hf : follows st st1) :
    st1.tokens.length - st1.pos ≤ st.tokens.length - st.pos := by
  have h1 : st1.tokens.length = st.tokens.length := by rw [hf.1]
  have h2 := hf.2.2.1
  omega

theorem rem_lt_of_follows_strict {st st1 : PState} (hf : follows st st1)
    (hs : st.pos < st1.pos) (hp : st.pos < st.tokens.length) :
    st1.tokens.length - st1.pos < st.tokens.length - st.pos := by
  have h1 : st1.tokens.length = st.tokens.length := by rw [hf.1]
  omega

theorem rem_bump_lt {st : PState} {t : Token} (h : StWf st)
    (ht : pcurrent st = some t) (hk : t.kind ≠ TokenKind.Eof) :
    (bump st).tokens.length - (bump st).pos < st.tokens.length - st.pos :=
  rem_lt_of_follows_strict (follows_bump h.1) (bump_pos_strict h ht hk) h.1

theorem pbind_ne_spin {α β : Type} {r : POut α} {f : α → PState → POut β}
    (h1 : r ≠ POut.spin) (h2 : ∀ a st', r = POut.ok a st' → f a st' ≠ POut.spin) :
    pbind r f ≠ POut.spin := by
  cases r with
  | ok a st' => exact h2 a st' rfl
  | err e st' => simp [pbind]
  | crash => simp [pbind]
  | spin => exact absurd rfl h1

theorem pexpect_ne_spin (k : TokenKind) (st : PState) : pexpect k st ≠ POut.spin := by
  unfold pexpect
  split
  · split <;> simp
  · split
    · split <;> simp
    · simp

theorem parse_identifier_ne_spin (st : PState) : parse_identifier st ≠ POut.spin := by
  unfold parse_identifier
  split
  · split <;> simp
  · split
    · split <;> simp
    · simp

theorem parse_table_ref_ne_spin (st : PState) : parse_table_ref st ≠ POut.spin := by
  unfold parse_table_ref
  refine pbind_ne_spin (parse_identifier_ne_spin st) ?_
  intro name st1 _
  dsimp only
  split
  · refine pbind_ne_spin (parse_identifier_ne_spin _) ?_
    intro al st2 _
    simp
  · split
    · split
      · split
        · simp
        · refine pbind_ne_spin (parse_identifier_ne_spin _) ?_
          intro al st2 _
          simp
      · simp
    · simp

theorem parse_from_clause_ne_spin (st : PState) : parse_from_clause st ≠ POut.spin := by
  unfold parse_from_clause
  dsimp only
  split
  · refine pbind_ne_spin (parse_table_ref_ne_spin _) ?_
    intro tr st1 _
    simp
  · split <;> simp

/-- The fuel bounds (per-method weights) under which no method spins. -/
structure G2At (n : Nat) : Prop where
  primary : ∀ st, StWf st → 16 * (st.tokens.length - st.pos) + 1 ≤ n →
    parse_primary n st ≠ POut.spin
  prec : ∀ minPrec st, StWf st → 16 * (st.tokens.length - st.pos) + 2 ≤ n →
    parse_expr_with_precedence n minPrec st ≠ POut.spin
  eloop : ∀ minPrec left st, StWf st → 16 * (st.tokens.length - st.pos) + 1 ≤ n →
    parse_expr_loop n minPrec left st ≠ POut.spin
  elist : ∀ st, StWf st → 16 * (st.tokens.length - st.pos) + 3 ≤ n →
    parse_expr_list n st ≠ POut.spin
  elistAux : ∀ acc st, StWf st → 16 * (st.tokens.length - st.pos) + 1 ≤ n →
    parse_expr_list_aux n acc st ≠ POut.spin
  psel : ∀ st, StWf st → 16 * (st.tokens.length - st.pos) + 5 ≤ n →
    parse_select n st ≠ POut.spin
  pbody : ∀ he st, StWf st → 16 * (st.tokens.length - st.pos) + 4 ≤ n →
    parse_select_body n he st ≠ POut.spin
  pwhere : ∀ st, StWf st → 16 * (st.tokens.length - st.pos) + 1 ≤ n →
    parse_where_clause n st ≠ POut.spin
  pwith : ∀ st, StWf st → 16 * (st.tokens.length - st.pos) + 5 ≤ n →
    parse_with n st ≠ POut.spin
  cteAux : ∀ acc st, StWf st → 16 * (st.tokens.length - st.pos) + 1 ≤ n →
    parse_cte_list_aux n acc st ≠ POut.spin
  cte : ∀ st, StWf st → 16 * (st.tokens.length - st.pos) + 1 ≤ n →
    parse_cte n st ≠ POut.spin
  idl : ∀ st, StWf st → 16 * (st.tokens.length - st.pos) + 1 ≤ n →
    parse_identifier_list n st ≠ POut.spin
  idlAux : ∀ acc st, StWf st → 16 * (st.tokens.length - st.pos) + 1 ≤ n →
    parse_identifier_list_aux n acc st ≠ POut.spin
  query : ∀ st, StWf st → 16 * (st.tokens.length - st.pos) + 6 ≤ n →
    parse_query n st ≠ POut.spin
  stmt : ∀ st, StWf st → 16 * (st.tokens.length - st.pos) + 7 ≤ n →
    parse_statement n st ≠ POut.spin

theorem post_ok_strict {α : Type} {st st' : PState} {a : α} {r : POut α}
    (hpost : postOf true st r) (he : r = POut.ok a st') : st.pos < st'.pos := by
  subst he; exact hpost.2 rfl

theorem G2_primary (n : Nat) (ih : G2At n) :
    ∀ st, StWf st → 16 * (st.tokens.length - st.pos) + 1 ≤ n + 1 →
      parse_primary (n + 1) st ≠ POut.spin := by
  intro st h hn
  obtain ⟨t, ht⟩ := current_some h.1
  simp only [parse_primary, ht]
  split
  · split <;> simp
  · split <;> simp
  · split <;> simp
  · simp
  · simp
  · rename_i htk
    have hbrem := rem_bump_lt h ht (by rw [htk]; decide)
    have hwfb : StWf (bump st) := StWf_follows h (follows_bump h.1)
    refine pbind_ne_spin (ih.prec 0 (bump st) hwfb (by omega)) ?_
    intro e st2 _
    refine pbind_ne_spin (pexpect_ne_spin _ _) ?_
    intro tok st3 _
    simp
  · simp

theorem G2_prec (n : Nat) (ih : G2At n) :
    ∀ minPrec st, StWf st → 16 * (st.tokens.length - st.pos) + 2 ≤ n + 1 →
      parse_expr_with_precedence (n + 1) minPrec st ≠ POut.spin := by
  intro minPrec st h hn
  simp only [parse_expr_with_precedence]
  refine pbind_ne_spin (ih.primary st h (by omega)) ?_
  intro left st1 he
  have hpost := (G1 n).primary st h
  have hf1 := post_ok_follows hpost he
  have hs1 := post_ok_strict hpost he
  have hrem := rem_lt_of_follows_strict hf1 hs1 h.1
  exact ih.eloop minPrec left st1 (StWf_follows h hf1) (by omega)

theorem G2_eloop (n : Nat) (ih : G2At n) :
    ∀ minPrec left st, StWf st → 16 * (st.tokens.length - st.pos) + 1 ≤ n + 1 →
      parse_expr_loop (n + 1) minPrec left st ≠ POut.spin := by
  intro minPrec left st h hn
  simp only [parse_expr_loop]
  split
  · simp
  · rename_i token hcur
    split
    · simp
    · rename_i pb hprec
      split
      · simp
      · have hk : token.kind ≠ TokenKind.Eof := by
          intro hE; rw [hE] at hprec; cases hprec
        have hbrem := rem_bump_lt h hcur hk
        have hwfb : StWf (bump st) := StWf_follows h (follows_bump h.1)
        refine pbind_ne_spin (ih.prec _ (bump st) hwfb (by omega)) ?_
        intro right st2 he
        have hpost := (G1 n).prec (if pb.2 then pb.1 + 1 else pb.1) (bump st) hwfb
        have hf2 := post_ok_follows hpost he
        have hrem2 := rem_le_of_follows hf2
        have hwf2 := StWf_follows hwfb hf2
        split
        · exact ih.eloop minPrec _ st2 hwf2 (by omega)
        · exact ih.eloop minPrec left st2 hwf2 (by omega)

theorem G2_elist (n : Nat) (ih : G2At n) :
    ∀ st, StWf st → 16 * (st.tokens.length - st.pos) + 3 ≤ n + 1 →
      parse_expr_list (n + 1) st ≠ POut.spin := by
  intro st h hn
  simp only [parse_expr_list]
  refine pbind_ne_spin (ih.prec 0 st h (by omega)) ?_
  intro e st1 he
  have hpost := (G1 n).prec 0 st h
  have hf1 := post_ok_follows hpost he
  have hs1 := post_ok_strict hpost he
  have hrem := rem_lt_of_follows_strict hf1 hs1 h.1
  exact ih.elistAux [e] st1 (StWf_follows h hf1) (by omega)

theorem G2_elistAux (n : Nat) (ih : G2At n) :
    ∀ acc st, StWf st → 16 * (st.tokens.length - st.pos) + 1 ≤ n + 1 →
      parse_expr_list_aux (n + 1) acc st ≠ POut.spin := by
  intro acc st h hn
  simp only [parse_expr_list_aux]
  rcases htc : try_consume TokenKind.Comma st with ⟨b, st1⟩
  simp only [htc]
  have hpostT := try_consume_post h htc
  have hf1 := try_consume_follows h htc
  have hwf1 := StWf_follows h hf1
  by_cases hbb : b = true
  · subst hbb
    simp only [if_true]
    have hstrict := hpostT.2 rfl (by decide)
    have hrem1 := rem_lt_of_follows_strict hf1 hstrict h.1
    refine pbind_ne_spin (ih.prec 0 st1 hwf1 (by omega)) ?_
    intro e st2 he
    have hpost := (G1 n).prec 0 st1 hwf1
    have hf2 := post_ok_follows hpost he
    have hrem2 := rem_le_of_follows hf2
    exact ih.elistAux (acc ++ [e]) st2 (StWf_follows hwf1 hf2) (by omega)
  · simp only [hbb, Bool.false_eq_true, if_false]
    simp

theorem G2_psel (n : Nat) (ih : G2At n) :
    ∀ st, StWf st → 16 * (st.tokens.length - st.pos) + 5 ≤ n + 1 →
      parse_select (n + 1) st ≠ POut.spin := by
  intro st h hn
  obtain ⟨t, ht⟩ := current_some h.1
  simp only [parse_select, ht]
  by_cases hsel : t.kind = TokenKind.Select
  · rw [if_pos hsel]
    have hbrem := rem_bump_lt h ht (by rw [hsel]; decide)
    exact ih.pbody false (bump st) (StWf_follows h (follows_bump h.1)) (by omega)
  · rw [if_neg hsel]
    by_cases hid : t.kind = TokenKind.Identifier
    · rw [if_pos hid]
      split
      · have hfT : follows st (trackSt st t.spanStart "SELECT" (some t.text)) :=
          follows_trackSt h.1 _ _ _
        have hwfT := StWf_follows h hfT
        have htT : pcurrent (trackSt st t.spanStart "SELECT" (some t.text)) = some t := ht
        have hbrem := rem_bump_lt hwfT htT (by rw [hid]; decide)
        have hremT : (trackSt st t.spanStart "SELECT" (some t.text)).tokens.length -
            (trackSt st t.spanStart "SELECT" (some t.text)).pos =
            st.tokens.length - st.pos := rfl
        exact ih.pbody true _ (StWf_follows hwfT (follows_bump hwfT.1)) (by omega)
      · simp
    · rw [if_neg hid]
      simp

theorem G2_pbody (n : Nat) (ih : G2At n) :
    ∀ he st, StWf st → 16 * (st.tokens.length - st.pos) + 4 ≤ n + 1 →
      parse_select_body (n + 1) he st ≠ POut.spin := by
  intro hadErrors st h hn
  simp only [parse_select_body]
  rcases htc : try_consume TokenKind.Star st with ⟨b, st1⟩
  simp only [htc]
  have hf1 := try_consume_follows h htc
  have hwf1 := StWf_follows h hf1
  have hrem1 := rem_le_of_follows hf1
  have hfirst_post : postOf false st
      (if b = true then POut.ok [Expr.star] st1 else parse_expr_list n st1) := by
    by_cases hbb : b = true
    · subst hbb
      simp only [if_true]
      exact ⟨hf1, fun hc => by cases hc⟩
    · simp only [hbb, Bool.false_eq_true, if_false]
      exact postOf_comp_ww hf1 (postOf_weaken ((G1 n).elist st1 hwf1))
  have hfirst_ne :
      (if b = true then POut.ok [Expr.star] st1 else parse_expr_list n st1) ≠ POut.spin := by
    by_cases hbb : b = true
    · subst hbb; simp
    · simp only [hbb, Bool.false_eq_true, if_false]
      exact ih.elist st1 hwf1 (by omega)
  refine pbind_ne_spin hfirst_ne ?_
  intro projection st2 hproj
  have hf2 := post_ok_follows hfirst_post hproj
  have hwf2 := StWf_follows h hf2
  have hrem2 := rem_le_of_follows hf2
  refine pbind_ne_spin (parse_from_clause_ne_spin st2) ?_
  intro fromRef st3 hfrom
  have hf3 := post_ok_follows (parse_from_clause_post hwf2) hfrom
  have hwf3 := StWf_follows hwf2 hf3
  have hrem3 := rem_le_of_follows hf3
  refine pbind_ne_spin (ih.pwhere st3 hwf3 (by omega)) ?_
  intro whereCl st4 hwhere
  split <;> simp

theorem G2_pwhere (n : Nat) (ih : G2At n) :
    ∀ st, StWf st → 16 * (st.tokens.length - st.pos) + 1 ≤ n + 1 →
      parse_where_clause (n + 1) st ≠ POut.spin := by
  intro st h hn
  simp only [parse_where_clause]
  rcases htc : try_consume TokenKind.Where st with ⟨b, st1⟩
  simp only [htc]
  have hpostT := try_consume_post h htc
  have hf1 := try_consume_follows h htc
  have hwf1 := StWf_follows h hf1
  by_cases hbb : b = true
  · subst hbb
    simp only [if_true]
    have hstrict := hpostT.2 rfl (by decide)
    have hrem1 := rem_lt_of_follows_strict hf1 hstrict h.1
    refine pbind_ne_spin (ih.prec 0 st1 hwf1 (by omega)) ?_
    intro e st2 _
    simp
  · simp only [hbb, Bool.false_eq_true, if_false]
    split <;> simp

theorem G2_pwith (n : Nat) (ih : G2At n) :
    ∀ st, StWf st → 16 * (st.tokens.length - st.pos) + 5 ≤ n + 1 →
      parse_with (n + 1) st ≠ POut.spin := by
  intro st h hn
  simp only [parse_with]
  refine pbind_ne_spin (pexpect_ne_spin _ _) ?_
  intro tok st1 he
  have hpostE := pexpect_post TokenKind.With h (by decide)
  have hf1 := post_ok_follows hpostE he
  have hs1 := post_ok_strict hpostE he
  have hwf1 := StWf_follows h hf1
  have hrem1 := rem_lt_of_follows_strict hf1 hs1 h.1
  rcases htc : try_consume TokenKind.Recursive st1 with ⟨r, st2⟩
  simp only [htc]
  have hf2 := try_consume_follows hwf1 htc
  have hwf2 := StWf_follows hwf1 hf2
  have hrem2 := rem_le_of_follows hf2
  refine pbind_ne_spin (ih.cte st2 hwf2 (by omega)) ?_
  intro c st3 hc
  have hpostC := (G1 n).cte st2 hwf2
  have hf3 := post_ok_follows hpostC hc
  have hwf3 := StWf_follows hwf2 hf3
  have hrem3 := rem_le_of_follows hf3
  refine pbind_ne_spin (ih.cteAux [c] st3 hwf3 (by omega)) ?_
  intro cs st4 _
  simp

theorem G2_cteAux (n : Nat) (ih : G2At n) :
    ∀ acc st, StWf st → 16 * (st.tokens.length - st.pos) + 1 ≤ n + 1 →
      parse_cte_list_aux (n + 1) acc st ≠ POut.spin := by
  intro acc st h hn
  simp only [parse_cte_list_aux]
  rcases htc : try_consume TokenKind.Comma st with ⟨b, st1⟩
  simp only [htc]
  have hpostT := try_consume_post h htc
  have hf1 := try_consume_follows h htc
  have hwf1 := StWf_follows h hf1
  by_cases hbb : b = true
  · subst hbb
    simp only [if_true]
    have hstrict := hpostT.2 rfl (by decide)
    have hrem1 := rem_lt_of_follows_strict hf1 hstrict h.1
    refine pbind_ne_spin (ih.cte st1 hwf1 (by omega)) ?_
    intro ct st2 hct
    have hpostC := (G1 n).cte st1 hwf1
    have hf2 := post_ok_follows hpostC hct
    have hrem2 := rem_le_of_follows hf2
    exact ih.cteAux (acc ++ [ct]) st2 (StWf_follows hwf1 hf2) (by omega)
  · simp only [hbb, Bool.false_eq_true, if_false]
    simp

/-- The optional column list step of `parse_cte`, as its own
postcondition lemma (shared by the fuel bound proof). -/
theorem cte_colStep_post (n : Nat) (g : G1At n) {st1 : PState} (hwf1 : StWf st1) :
    postOf false st1
      (match pcurrent st1 with
       | some t =>
           if t.kind = TokenKind.LeftParen then
             pbind (parse_identifier_list n (bump st1)) fun cols st2 =>
               pbind (pexpect TokenKind.RightParen st2) fun _ st3 =>
                 POut.ok (some cols) st3
           else POut.ok none st1
       | none => POut.ok none st1) := by
  split
  · rename_i t hcur
    by_cases hlp : t.kind = TokenKind.LeftParen
    · rw [if_pos hlp]
      have hfb := follows_bump hwf1.1
      have hwfb := StWf_follows hwf1 hfb
      refine postOf_comp_ww hfb ?_
      refine postOf_pbind_ww (postOf_weaken (g.idl (bump st1) hwfb)) ?_
      intro cols st2 hcols
      have hwf2 := StWf_of_ok hwfb (g.idl (bump st1) hwfb) hcols
      refine postOf_pbind_ww
        (postOf_weaken (pexpect_post TokenKind.RightParen hwf2 (by decide))) ?_
      intro tok st3 htok
      exact postOf_ok_self
        (StWf_of_ok hwf2 (pexpect_post TokenKind.RightParen hwf2 (by decide)) htok).1 _
    · rw [if_neg hlp]
      exact postOf_ok_self hwf1.1 _
  · exact postOf_ok_self hwf1.1 _

theorem G2_cte (n : Nat) (ih : G2At n) :
    ∀ st, StWf st → 16 * (st.tokens.length - st.pos) + 1 ≤ n + 1 →
      parse_cte (n + 1) st ≠ POut.spin := by
  intro st h hn
  simp only [parse_cte]
  refine pbind_ne_spin (parse_identifier_ne_spin st) ?_
  intro name st1 hname
  have hpostI := parse_identifier_post h
  have hf1 := post_ok_follows hpostI hname
  have hs1 := post_ok_strict hpostI hname
  have hwf1 := StWf_follows h hf1
  have hrem1 := rem_lt_of_follows_strict hf1 hs1 h.1
  have hcol_post := cte_colStep_post n (G1 n) hwf1
  have hcol_ne :
      (match pcurrent st1 with
       | some t =>
           if t.kind = TokenKind.LeftParen then
             pbind (parse_identifier_list n (bump st1)) fun cols st2 =>
               pbind (pexpect TokenKind.RightParen st2) fun _ st3 =>
                 POut.ok (some cols) st3
           else POut.ok none st1
       | none => POut.ok none st1) ≠ POut.spin := by
    split
    · rename_i t hcur
      by_cases hlp : t.kind = TokenKind.LeftParen
      · rw [if_pos hlp]
        have hbrem := rem_bump_lt hwf1 hcur (by rw [hlp]; decide)
        refine pbind_ne_spin
          (ih.idl (bump st1) (StWf_follows hwf1 (follows_bump hwf1.1)) (by omega)) ?_
        intro cols st2 _
        refine pbind_ne_spin (pexpect_ne_spin _ _) ?_
        intro tok st3 _
        simp
      · rw [if_neg hlp]
        simp
    · simp
  refine pbind_ne_spin hcol_ne ?_
  intro columns st2 hcols
  have hf2 := post_ok_follows hcol_post hcols
  have hwf2 := StWf_follows hwf1 hf2
  have hrem2 := rem_le_of_follows hf2
  refine pbind_ne_spin (pexpect_ne_spin _ _) ?_
  intro tok3 st3 h3
  have hpostAs := pexpect_post TokenKind.As hwf2 (by decide)
  have hf3 := post_ok_follows hpostAs h3
  have hwf3 := StWf_follows hwf2 hf3
  have hrem3 := rem_le_of_follows hf3
  refine pbind_ne_spin (pexpect_ne_spin _ _) ?_
  intro tok4 st4 h4
  have hpostLp := pexpect_post TokenKind.LeftParen hwf3 (by decide)
  have hf4 := post_ok_follows hpostLp h4
  have hwf4 := StWf_follows hwf3 hf4
  have hrem4 := rem_le_of_follows hf4
  refine pbind_ne_spin (ih.query st4 hwf4 (by omega)) ?_
  intro q st5 h5
  refine pbind_ne_spin (pexpect_ne_spin _ _) ?_
  intro tok6 st6 _
  simp

theorem G2_idl (n : Nat) (ih : G2At n) :
    ∀ st, StWf st → 16 * (st.tokens.length - st.pos) + 1 ≤ n + 1 →
      parse_identifier_list (n + 1) st ≠ POut.spin := by
  intro st h hn
  simp only [parse_identifier_list]
  refine pbind_ne_spin (parse_identifier_ne_spin st) ?_
  intro i st1 hi
  have hpostI := parse_identifier_post h
  have hf1 := post_ok_follows hpostI hi
  have hs1 := post_ok_strict hpostI hi
  have hrem1 := rem_lt_of_follows_strict hf1 hs1 h.1
  exact ih.idlAux [i] st1 (StWf_follows h hf1) (by omega)

theorem G2_idlAux (n : Nat) (ih : G2At n) :
    ∀ acc st, StWf st → 16 * (st.tokens.length - st.pos) + 1 ≤ n + 1 →
      parse_identifier_list_aux (n + 1) acc st ≠ POut.spin := by
  intro acc st h hn
  simp only [parse_identifier_list_aux]
  rcases htc : try_consume TokenKind.Comma st with ⟨b, st1⟩
  simp only [htc]
  have hpostT := try_consume_post h htc
  have hf1 := try_consume_follows h htc
  have hwf1 := StWf_follows h hf1
  by_cases hbb : b = true
  · subst hbb
    simp only [if_true]
    have hstrict := hpostT.2 rfl (by decide)
    have hrem1 := rem_lt_of_follows_strict hf1 hstrict h.1
    refine pbind_ne_spin (parse_identifier_ne_spin st1) ?_
    intro i st2 hi
    have hpostI := parse_identifier_post hwf1
    have hf2 := post_ok_follows hpostI hi
    have hrem2 := rem_le_of_follows hf2
    exact ih.idlAux (acc ++ [i]) st2 (StWf_follows hwf1 hf2) (by omega)
  · simp only [hbb, Bool.false_eq_true, if_false]
    simp

theorem G2_query (n : Nat) (ih : G2At n) :
    ∀ st, StWf st → 16 * (st.tokens.length - st.pos) + 6 ≤ n + 1 →
      parse_query (n + 1) st ≠ POut.spin := by
  intro st h hn
  simp only [parse_query]
  by_cases hW : (pcurrent st).map (fun t => t.kind) = some TokenKind.With
  · rw [if_pos hW]
    refine pbind_ne_spin (ih.pwith st h (by omega)) ?_
    intro w st1 hw
    have hpostW := (G1 n).pwith st h
    have hf1 := post_ok_follows hpostW hw
    have hs1 := post_ok_strict hpostW hw
    have hwf1 := StWf_follows h hf1
    have hrem1 := rem_lt_of_follows_strict hf1 hs1 h.1
    refine pbind_ne_spin (ih.query st1 hwf1 (by omega)) ?_
    intro q st2 _
    simp
  · rw [if_neg hW]
    refine pbind_ne_spin (ih.psel st h (by omega)) ?_
    intro sel st1 hsel
    have hpostS := (G1 n).psel st h
    have hf1 := post_ok_follows hpostS hsel
    have hs1 := post_ok_strict hpostS hsel
    have hwf1 := StWf_follows h hf1
    have hrem1 := rem_lt_of_follows_strict hf1 hs1 h.1
    rcases htc : try_consume TokenKind.Union st1 with ⟨u, st2⟩
    simp only [htc]
    have hf2 := try_consume_follows hwf1 htc
    have hwf2 := StWf_follows hwf1 hf2
    have hrem2 := rem_le_of_follows hf2
    by_cases huu : u = true
    · subst huu
      simp only [if_true]
      rcases hta : try_consume TokenKind.All st2 with ⟨a, st3⟩
      simp only [hta]
      have hf3 := try_consume_follows hwf2 hta
      have hwf3 := StWf_follows hwf2 hf3
      have hrem3 := rem_le_of_follows hf3
      refine pbind_ne_spin (ih.query st3 hwf3 (by omega)) ?_
      intro right st4 _
      simp
    · simp only [huu, Bool.false_eq_true, if_false]
      simp

theorem G2_stmt (n : Nat) (ih : G2At n) :
    ∀ st, StWf st → 16 * (st.tokens.length - st.pos) + 7 ≤ n + 1 →
      parse_statement (n + 1) st ≠ POut.spin := by
  intro st h hn
  simp only [parse_statement]
  have hAttempt : ∀ s0 : PState, follows st s0 →
      (match parse_select n { s0 with pos := st.pos } with
       | POut.ok sel st1 => POut.ok (Statement.query (Query.select sel)) st1
       | POut.err _ st1 =>
           let st2 := { st1 with pos := st.pos }
           let st3 :=
             match pcurrent st2 with
             | some token =>
                 let a := trackSt st2 token.spanStart "INSERT" (some token.text)
                 let b := trackSt a token.spanStart "UPDATE" (some token.text)
                 let c := trackSt b token.spanStart "DELETE" (some token.text)
                 trackSt c token.spanStart "WITH" (some token.text)
             | none => st2
           POut.err (failNow st3) st3
       | POut.crash => POut.crash
       | POut.spin => POut.spin) ≠ POut.spin := by
    intro s0 hf0
    have hf0' : follows st { s0 with pos := st.pos } :=
      ⟨hf0.1, hf0.2.1, le_refl _, h.1, hf0.2.2.2.2⟩
    have hwf0' : StWf { s0 with pos := st.pos } := StWf_follows h hf0'
    have hlen0 : ({ s0 with pos := st.pos } : PState).tokens.length = st.tokens.length := by
      show s0.tokens.length = st.tokens.length
      rw [hf0.1]
    split
    · simp
    · simp
    · simp
    · rename_i hps
      refine absurd hps (ih.psel { s0 with pos := st.pos } hwf0' ?_)
      show 16 * (s0.tokens.length - st.pos) + 5 ≤ n
      have : s0.tokens.length = st.tokens.length := by rw [hf0.1]
      omega
  by_cases hW : (pcurrent st).map (fun t => t.kind) = some TokenKind.With
  · rw [if_pos hW]
    split
    · rename_i w st1 hpw
      have hpostW := (G1 n).pwith st h
      have hf1 := post_ok_follows hpostW hpw
      have hs1 := post_ok_strict hpostW hpw
      have hwf1 := StWf_follows h hf1
      have hrem1 := rem_lt_of_follows_strict hf1 hs1 h.1
      split
      · simp
      · rename_i e st2 hpq
        exact hAttempt st2
          (follows_trans hf1 (post_err_follows ((G1 n).query st1 hwf1) hpq))
      · simp
      · rename_i hpq
        exact absurd hpq (ih.query st1 hwf1 (by omega))
    · rename_i e st1 hpw
      exact hAttempt st1 (post_err_follows ((G1 n).pwith st h) hpw)
    · simp
    · rename_i hpw
      exact absurd hpw (ih.pwith st h (by omega))
  · rw [if_neg hW]
    exact hAttempt st (follows_refl h.1)

/-- The fuel bounds hold at every fuel level. -/
theorem G2 : ∀ n, G2At n := by
  intro n
  induction n with
  | zero =>
      exact ⟨fun _ _ hb => by omega, fun _ _ _ hb => by omega, fun _ _ _ _ hb => by omega,
        fun _ _ hb => by omega, fun _ _ _ hb => by omega, fun _ _ hb => by omega,
        fun _ _ _ hb => by omega, fun _ _ hb => by omega, fun _ _ hb => by omega,
        fun _ _ _ hb => by omega, fun _ _ hb => by omega, fun _ _ hb => by omega,
        fun _ _ _ hb => by omega, fun _ _ hb => by omega, fun _ _ hb => by omega⟩
  | succ n ih =>
      exact ⟨G2_primary n ih, G2_prec n ih, G2_eloop n ih, G2_elist n ih,
        G2_elistAux n ih, G2_psel n ih, G2_pbody n ih, G2_pwhere n ih,
        G2_pwith n ih, G2_cteAux n ih, G2_cte n ih, G2_idl n ih,
        G2_idlAux n ih, G2_query n ih, G2_stmt n ih⟩

/-! ## Claim C3: the lenient SELECT-typo path never succeeds -/

theorem pbind_eq_ok {α β : Type} {r : POut α} {f : α → PState → POut β} {b : β}
    {stb : PState} :
    pbind r f = POut.ok b stb ↔ ∃ a st1, r = POut.ok a st1 ∧ f a st1 = POut.ok b stb := by
  cases r with
  | ok a st1 =>
      simp only [pbind]
      constructor
      · intro h
        exact ⟨a, st1, rfl, h⟩
      · rintro ⟨a2, s2, heq, h2⟩
        cases heq
        exact h2
  | err e st1 => simp [pbind]
  | crash => simp [pbind]
  | spin => simp [pbind]

/-- With `had_errors = true` the body of `parse_select` can never return
`Ok`: every path ends in the final error check. -/
theorem parse_select_body_true_ne_ok (n : Nat) (st : PState) (stmt : SelectStmt)
    (st' : PState) : parse_select_body n true st ≠ POut.ok stmt st' := by
  cases n with
  | zero => simp [parse_select_body]
  | succ m =>
      simp only [parse_select_body]
      intro hcontra
      rw [pbind_eq_ok] at hcontra
      obtain ⟨proj, st1, _, hcontra⟩ := hcontra
      rw [pbind_eq_ok] at hcontra
      obtain ⟨fr, st2, _, hcontra⟩ := hcontra
      rw [pbind_eq_ok] at hcontra
      obtain ⟨wc, st3, _, hcontra⟩ := hcontra
      simp at hcontra

/-- **C3**: whenever the first token at `parse_select` is an identifier
whose uppercased text starts with `"SEL"` and has length at least 4, the
lenient path records the position in the tracker, continues, and still
never yields a successful `SelectStmt` — any error it returns carries a
recorded failure at or beyond that token's position; and `parse_select`
returns `Ok` only when the first token is the exact SELECT keyword. -/
theorem claim_C3 :
    (∀ fuel st t, StWf st → pcurrent st = some t → t.kind = TokenKind.Identifier →
      listPrefix "SEL".data (toUpperStr t.text).data = true →
      4 ≤ (toUpperStr t.text).data.length →
      (∀ stmt st', parse_select fuel st ≠ POut.ok stmt st') ∧
      (∀ e st', parse_select fuel st = POut.err e st' →
        ∃ inner, st'.backtrace = some inner ∧ t.spanStart ≤ inner.furthestPos)) ∧
    (∀ fuel st stmt st', parse_select fuel st = POut.ok stmt st' →
      ∃ t, pcurrent st = some t ∧ t.kind = TokenKind.Select) := by
  constructor
  · intro fuel st t h ht hid hpre hlen
    cases fuel with
    | zero =>
        constructor
        · intro stmt st'
          simp [parse_select]
        · intro e st' he
          simp [parse_select] at he
    | succ n =>
        have hsel : ¬ t.kind = TokenKind.Select := by rw [hid]; decide
        have hcond : (listPrefix "SEL".data (toUpperStr t.text).data &&
            decide (4 ≤ (toUpperStr t.text).data.length)) = true := by
          rw [hpre, decide_eq_true hlen]
          rfl
        have hred : parse_select (n + 1) st =
            parse_select_body n true (bump (trackSt st t.spanStart "SELECT" (some t.text))) := by
          simp only [parse_select, ht, if_neg hsel, if_pos hid, hcond, if_true]
        constructor
        · intro stmt st'
          rw [hred]
          exact parse_select_body_true_ne_ok n _ stmt st'
        · intro e st' he
          rw [hred] at he
          have hfT : follows st (trackSt st t.spanStart "SELECT" (some t.text)) :=
            follows_trackSt h.1 _ _ _
          have hwfT := StWf_follows h hfT
          have hwfB := StWf_follows hwfT (follows_bump hwfT.1)
          have hpost := (G1 n).pbody true
            (bump (trackSt st t.spanStart "SELECT" (some t.text))) hwfB
          have hfol := post_err_follows hpost he
          have hbt : btLe (track_error st.backtrace t.spanStart "SELECT" (some t.text) st.input)
              st'.backtrace := by
            have h1 := hfol.2.2.2.2
            rw [bump_backtrace] at h1
            exact h1
          obtain ⟨inner0, hinner0, hle0⟩ :=
            track_error_records st.backtrace t.spanStart "SELECT" (some t.text) st.input
          rw [hinner0] at hbt
          cases hbt' : st'.backtrace with
          | none => rw [hbt'] at hbt; exact hbt.elim
          | some inner' =>
              rw [hbt'] at hbt
              exact ⟨inner', rfl, le_trans hle0 hbt⟩
  · intro fuel st stmt st' hok
    cases fuel with
    | zero => simp [parse_select] at hok
    | succ n =>
        cases hcur : pcurrent st with
        | none =>
            simp only [parse_select, hcur] at hok
            split at hok
            · split at hok <;> cases hok
            · cases hok
        | some t =>
            by_cases hsel : t.kind = TokenKind.Select
            · exact ⟨t, rfl, hsel⟩
            · exfalso
              simp only [parse_select, hcur, if_neg hsel] at hok
              by_cases hid : t.kind = TokenKind.Identifier
              · rw [if_pos hid] at hok
                split at hok
                · exact parse_select_body_true_ne_ok n _ stmt st' hok
                · cases hok
              · rw [if_neg hid] at hok
                cases hok

/-- Token list for `"SELEC * FROM users"` (SELEC is a SEL-prefixed
identifier of length ≥ 4, so the lenient path fires). -/
def selecToks : List Token :=
  [⟨"SELEC", .Identifier, 0, 5⟩, ⟨"*", .Star, 6, 7⟩, ⟨"FROM", .From, 8, 12⟩,
   ⟨"users", .Identifier, 13, 18⟩, ⟨"", .Eof, 18, 18⟩]

section RatEvalC3

attribute [local semireducible] Rat.add Rat.mul Rat.sub Rat.inv

/-- Witness for C3 on `"SELEC * FROM users"`: the lenient path parses to
the end yet refuses to succeed, and its error state has a recorded
failure at (or beyond) position 0. -/
theorem claim_C3_witness :
    parse_select 32 (PState.mk selecToks 0 none "SELEC * FROM users") ≠
      POut.ok ⟨[Expr.star], some ⟨"users", none⟩, none⟩
        (PState.mk selecToks 4 none "SELEC * FROM users") ∧
    (∃ inner,
      (PState.mk selecToks 4
        (some ⟨0, ["SELECT"], some "SELEC", 1, 1⟩) "SELEC * FROM users").backtrace =
          some inner ∧ 0 ≤ inner.furthestPos) := by
  have h := claim_C3.1 32 (PState.mk selecToks 0 none "SELEC * FROM users")
    ⟨"SELEC", .Identifier, 0, 5⟩ ⟨by decide, by decide, by decide⟩ rfl rfl
    (by decide) (by decide)
  exact ⟨h.1 _ _, h.2
    ⟨"Expected SELECT, found 'SELEC'", 1, 1, some "SELECT",
      some "  1 | SELEC * FROM users\n    | ^"⟩
    (PState.mk selecToks 4 (some ⟨0, ["SELECT"], some "SELEC", 1, 1⟩) "SELEC * FROM users")
    (by rfl)⟩

end RatEvalC3

/-! ## Claim C9: `parse_sql` always terminates with `Ok` or `Err` -/

/-- Well-formed lexer output: a string-literal item's slice carries its
two delimiting quote characters (the string-literal regexes of the lexer
always match at least the two quotes). -/
def LexWf (input : String) (items : List LexItem) : Prop :=
  ∀ it ∈ items, it.res = some TokenKind.String →
    2 ≤ (strSlice input it.spanStart it.spanEnd).data.length

theorem tokenize_ne_nil (input : String) (items : List LexItem) :
    tokenize input items ≠ [] := by
  simp [tokenize]

theorem tokenize_getLast (input : String) (items : List LexItem) :
    (tokenize input items).getLast? =
      some (Token.mk "" TokenKind.Eof input.length input.length) := by
  simp [tokenize]

/-- Unrecognized lexical runs (`res = none`) are skipped: dropping them
from the item list leaves the token list unchanged. -/
theorem tokenize_skips_none (input : String) (items : List LexItem) :
    tokenize input items = tokenize input (items.filter fun it => it.res.isSome) := by
  simp only [tokenize]
  congr 1
  induction items with
  | nil => rfl
  | cons it rest ih =>
      cases hres : it.res with
      | none => simp [List.filterMap_cons, List.filter_cons, hres, ih]
      | some k => simp [List.filterMap_cons, List.filter_cons, hres, ih]

/-- The fresh parser state built by `parse_sql` is well-formed. -/
theorem tokenize_StWf (input : String) (items : List LexItem)
    (hl : LexWf input items) :
    StWf (PState.mk (tokenize input items) 0 none input) := by
  refine ⟨?_, ?_, ?_⟩
  · simp [tokenize]
  · rw [show (PState.mk (tokenize input items) 0 none input).tokens =
        tokenize input items from rfl, tokenize_getLast]
    rfl
  · intro t ht hstr
    simp only [tokenize] at ht
    rcases List.mem_append.mp ht with hmem | hmem
    · obtain ⟨it, hit, heq⟩ := List.mem_filterMap.mp hmem
      cases hres : it.res with
      | none => rw [hres] at heq; cases heq
      | some k =>
          rw [hres] at heq
          simp only [Option.map_some'] at heq
          injection heq with heq
          subst heq
          have hk : k = TokenKind.String := hstr
          exact hl it hit (by rw [hres, hk])
    · rw [List.mem_singleton.mp hmem] at hstr
      cases hstr

/-- **C9**: tokenization never aborts — it yields a nonempty token list
ending in the `Eof` sentinel and is unchanged by dropping unrecognized
runs — and for any well-formed lexer output, `parse_sql` with fuel at
least `16·tokens + 7` returns either `Ok` or `Err`: it neither crashes
(panics) nor spins (fails to terminate). -/
theorem claim_C9 :
    (∀ input items,
      tokenize input items ≠ [] ∧
      (tokenize input items).getLast? =
        some (Token.mk "" TokenKind.Eof input.length input.length) ∧
      tokenize input items = tokenize input (items.filter fun it => it.res.isSome)) ∧
    (∀ input items fuel, LexWf input items →
      16 * (tokenize input items).length + 7 ≤ fuel →
      (∃ st', parse_sql input items fuel = POut.ok () st') ∨
      (∃ e st', parse_sql input items fuel = POut.err e st')) := by
  constructor
  · intro input items
    exact ⟨tokenize_ne_nil input items, tokenize_getLast input items,
      tokenize_skips_none input items⟩
  · intro input items fuel hl hfuel
    have hwf := tokenize_StWf input items hl
    have hpost := (G1 fuel).stmt (PState.mk (tokenize input items) 0 none input) hwf
    have hns := (G2 fuel).stmt (PState.mk (tokenize input items) 0 none input) hwf
      (by simpa using hfuel)
    cases hcase : parse_statement fuel (PState.mk (tokenize input items) 0 none input) with
    | ok stmt st' =>
        left
        exact ⟨st', by simp [parse_sql, hcase]⟩
    | err e st' =>
        right
        exact ⟨e, st', by simp [parse_sql, hcase]⟩
    | crash =>
        rw [hcase] at hpost
        simp only [postOf] at hpost
    | spin => exact absurd hcase hns

/-- Lexer items for `"SELECT * FROM users"`, with an extra unrecognized
run to exercise the skip path. -/
def sqlItems : List LexItem :=
  [⟨some .Select, 0, 6⟩, ⟨none, 6, 7⟩, ⟨some .Star, 7, 8⟩, ⟨some .From, 9, 13⟩,
   ⟨some .Identifier, 14, 19⟩]

/-- Witness for C9 on `"SELECT * FROM users"`: with fuel 96 the parser
finishes with `Ok` or `Err` (no crash, no spin). -/
theorem claim_C9_witness :
    (∃ st', parse_sql "SELECT * FROM users" sqlItems 96 = POut.ok () st') ∨
    (∃ e st', parse_sql "SELECT * FROM users" sqlItems 96 = POut.err e st') :=
  claim_C9.2 "SELECT * FROM users" sqlItems 96
    (by unfold LexWf; decide) (by decide)

/-! ## Claim C10: the `Eof` sentinel keeps the cursor in bounds -/

section RatEvalC10

attribute [local semireducible] Rat.add Rat.mul Rat.sub Rat.inv

/-- **C10**: `tokenize` always produces a nonempty list ending in the
`Eof` sentinel; `advance` never moves the cursor past the last token;
`current` never returns `None` while the cursor is in bounds; any state
`parse_statement` returns (with `Ok` or `Err`) from the initial state
built by `parse_sql` still has its cursor in bounds with a current token
— so the `None` ("reached end of input") branches are unreachable from
`parse_sql`; and on the empty input the premature end of input is
tracked against the `Eof` token's empty text, yielding
`Expected one of: SELECT, INSERT, UPDATE, DELETE, WITH, found ''`. -/
theorem claim_C10 :
    (∀ input items,
      tokenize input items ≠ [] ∧
      ((tokenize input items).getLast?).map (fun t => t.kind) = some TokenKind.Eof) ∧
    (∀ st, st.pos < st.tokens.length → (bump st).pos < st.tokens.length) ∧
    (∀ st, st.pos < st.tokens.length → pcurrent st ≠ none) ∧
    (∀ fuel input items st', LexWf input items →
      ((∃ stmt, parse_statement fuel (PState.mk (tokenize input items) 0 none input) =
          POut.ok stmt st') ∨
        (∃ e, parse_statement fuel (PState.mk (tokenize input items) 0 none input) =
          POut.err e st')) →
      st'.pos < st'.tokens.length ∧ pcurrent st' ≠ none) ∧
    parse_sql "" [] 64 =
      POut.err
        ⟨"Expected one of: SELECT, INSERT, UPDATE, DELETE, WITH, found ''", 1, 1, none, none⟩
        (PState.mk [Token.mk "" TokenKind.Eof 0 0] 0
          (some ⟨0, ["SELECT", "INSERT", "UPDATE", "DELETE", "WITH"], some "", 1, 1⟩) "") := by
  refine ⟨?_, ?_, ?_, ?_, ?_⟩
  · intro input items
    exact ⟨tokenize_ne_nil input items, by rw [tokenize_getLast]; rfl⟩
  · exact fun st h => bump_pos_lt st h
  · intro st h
    obtain ⟨t, ht⟩ := current_some h
    rw [ht]
    exact Option.some_ne_none t
  · intro fuel input items st' hl hcase
    have hwf := tokenize_StWf input items hl
    have hpost := (G1 fuel).stmt (PState.mk (tokenize input items) 0 none input) hwf
    have hfol : follows (PState.mk (tokenize input items) 0 none input) st' := by
      rcases hcase with ⟨stmt, he⟩ | ⟨e, he⟩
      · exact post_ok_follows hpost he
      · exact post_err_follows hpost he
    have hlt : st'.pos < st'.tokens.length := by
      rw [hfol.1]
      exact hfol.2.2.2.1
    refine ⟨hlt, ?_⟩
    obtain ⟨t, ht⟩ := current_some hlt
    rw [ht]
    exact Option.some_ne_none t
  · rfl

/-- Witness for C10 on `"SELECT * FROM users"`: the state in which
`parse_statement` succeeds still has its cursor in bounds (on the `Eof`
sentinel) and a current token. -/
theorem claim_C10_witness :
    (PState.mk (tokenize "SELECT * FROM users" sqlItems) 4 none
        "SELECT * FROM users").pos <
      (PState.mk (tokenize "SELECT * FROM users" sqlItems) 4 none
        "SELECT * FROM users").tokens.length ∧
    pcurrent (PState.mk (tokenize "SELECT * FROM users" sqlItems) 4 none
        "SELECT * FROM users") ≠ none :=
  claim_C10.2.2.2.1 64 "SELECT * FROM users" sqlItems
    (PState.mk (tokenize "SELECT * FROM users" sqlItems) 4 none "SELECT * FROM users")
    (by unfold LexWf; decide)
    (Or.inl ⟨Statement.query (Query.select ⟨[Expr.star], some ⟨"users", none⟩, none⟩),
      by rfl⟩)

end RatEvalC10

end SqlParserDemo
